import Mathlib

/-!
# Verification of the multi-function procedure IR
  (source/blender/functions/intern/multi_function_procedure.cc)

Shallow embedding of the procedure intermediate representation: variables,
the five instruction kinds, the procedure graph with its bidirectional
back-references (`prev` lists on instructions, `users` lists on variables),
the edge-mutation operations, the structural validators, and the backward
initialization analysis.

Instructions and variables are identified by their index in the owning
procedure's lists (the source uses stable pointers into an arena; identity
of an entity is its index here).  Nullable pointers become `Option`.
The per-kind instruction lists of the source are recovered from the single
creation-ordered instruction list by filtering on the kind tag, which
preserves the source's per-kind insertion order.
-/

namespace BlenderFn

set_option autoImplicit false

/-- Instructions are identified by their index in `MFProcedure.instructions`. -/
abbrev InstrId := Nat

/-- Variables are identified by their index in `MFProcedure.variables`. -/
abbrev VarId := Nat

/-- `MFParamType::InterfaceType` from the source: the role of a parameter. -/
inductive InterfaceType where
  | Input
  | Mutable
  | Output
deriving DecidableEq, Repr

/-- `MFParamType`: data type (opaque handle, modelled as `Nat`) plus role. -/
structure MFParamType where
  dataType : Nat
  interfaceType : InterfaceType
deriving DecidableEq, Repr

/-- Modelled from the spec: the external `MultiFunction` contract (its code is
outside this repository's sources) is pure metadata — an ordered parameter
list of `MFParamType`; `param_amount` is its length and `param_type i` its
`i`-th entry. The name plays no role in validation and is omitted. -/
structure MultiFunction where
  paramTypes : List MFParamType
deriving DecidableEq, Repr

/-- `MFVariable`: data type, optional name, and the `users_` multiset of
instructions referencing this variable (kept as a list; the source keeps a
vector whose order is scrambled by removals, only multiplicities matter). -/
structure MFVariable where
  dataType : Nat := 0
  name : String := ""
  users : List InstrId := []
deriving DecidableEq, Repr

/-- Kind-specific payload of an instruction: the five variants of the source
(`MFInstructionType` tag plus the per-kind fields). Nullable pointers are
`Option`s. The call payload carries the `MultiFunction` and the parameter
slot vector `params_` (allocated to the function's parameter count). -/
inductive InstrData where
  | call (fn : MultiFunction) (params : List (Option VarId)) (next : Option InstrId)
  | branch (condition : Option VarId) (branchTrue branchFalse : Option InstrId)
  | destruct (variable_ : Option VarId) (next : Option InstrId)
  | dummy (next : Option InstrId)
  | ret
deriving DecidableEq, Repr

/-- An instruction: kind-specific payload plus the common `prev_` list
(multiset of instructions whose successor edge targets this one). -/
structure MFInstruction where
  data : InstrData
  prev : List InstrId := []
deriving DecidableEq, Repr

/-- `MFProcedure`: owns the variables and instructions (in creation order),
the procedure parameters (role and variable, as appended by
`add_parameter`), and the `entry_` pointer. -/
structure MFProcedure where
  variables_ : List MFVariable := []
  instructions : List MFInstruction := []
  params : List (InterfaceType × VarId) := []
  entry : Option InstrId := none
deriving DecidableEq, Repr

namespace MFProcedure

/-- Dereference an instruction id (a pointer dereference in the source;
`none` corresponds to a dangling id, which the source cannot produce). -/
def getInstr (p : MFProcedure) (i : InstrId) : Option MFInstruction :=
  p.instructions[i]?

/-- Instruction at an id, defaulting to an isolated `Return` for invalid ids
(used to state invariants without dependent indexing). -/
def instrAt (p : MFProcedure) (i : InstrId) : MFInstruction :=
  p.instructions.getD i ⟨.ret, []⟩

/-- Variable at an id, defaulting for invalid ids. -/
def varAt (p : MFProcedure) (v : VarId) : MFVariable :=
  p.variables_.getD v {}

end MFProcedure

/-- View of one entry of the source's `call_instructions_` list. -/
structure CallData where
  id : InstrId
  fn : MultiFunction
  params : List (Option VarId)
  next : Option InstrId
deriving DecidableEq, Repr

/-- View of one entry of the source's `branch_instructions_` list. -/
structure BranchData where
  id : InstrId
  condition : Option VarId
  branchTrue : Option InstrId
  branchFalse : Option InstrId
deriving DecidableEq, Repr

/-- View of one entry of the source's `destruct_instructions_` list. -/
structure DestructData where
  id : InstrId
  variable_ : Option VarId
  next : Option InstrId
deriving DecidableEq, Repr

/-- View of one entry of the source's `dummy_instructions_` list. -/
structure DummyData where
  id : InstrId
  next : Option InstrId
deriving DecidableEq, Repr

namespace MFProcedure

/-- The source's `call_instructions_` list: the call instructions in
creation order, together with their ids. -/
def callInstructions (p : MFProcedure) : List CallData :=
  p.instructions.enum.filterMap fun iins =>
    match iins.2.data with
    | .call fn params next => some ⟨iins.1, fn, params, next⟩
    | _ => none

/-- The source's `branch_instructions_` list. -/
def branchInstructions (p : MFProcedure) : List BranchData :=
  p.instructions.enum.filterMap fun iins =>
    match iins.2.data with
    | .branch c t f => some ⟨iins.1, c, t, f⟩
    | _ => none

/-- The source's `destruct_instructions_` list. -/
def destructInstructions (p : MFProcedure) : List DestructData :=
  p.instructions.enum.filterMap fun iins =>
    match iins.2.data with
    | .destruct v next => some ⟨iins.1, v, next⟩
    | _ => none

/-- The source's `dummy_instructions_` list. -/
def dummyInstructions (p : MFProcedure) : List DummyData :=
  p.instructions.enum.filterMap fun iins =>
    match iins.2.data with
    | .dummy next => some ⟨iins.1, next⟩
    | _ => none

/-- The source's `return_instructions_` list (a return carries no payload,
so only the id remains). -/
def returnInstructions (p : MFProcedure) : List InstrId :=
  p.instructions.enum.filterMap fun iins =>
    match iins.2.data with
    | .ret => some iins.1
    | _ => none

/-- `MFProcedure::validate_all_instruction_pointers_set`: every call,
destruct and dummy has a non-null `next`, and every branch has non-null
`branch_true` and `branch_false`. -/
def validate_all_instruction_pointers_set (p : MFProcedure) : Bool :=
  (p.callInstructions.all fun c => c.next.isSome) &&
  (p.destructInstructions.all fun d => d.next.isSome) &&
  (p.branchInstructions.all fun b => b.branchTrue.isSome && b.branchFalse.isSome) &&
  (p.dummyInstructions.all fun d => d.next.isSome)

/-- `MFProcedure::validate_all_params_provided`: every call parameter slot,
every branch condition and every destruct target is non-null. -/
def validate_all_params_provided (p : MFProcedure) : Bool :=
  (p.callInstructions.all fun c => c.params.all fun v => v.isSome) &&
  (p.branchInstructions.all fun b => b.condition.isSome) &&
  (p.destructInstructions.all fun d => d.variable_.isSome)

/-- `MFProcedure::validate_same_variables_in_one_call`: for every call and
every pair of distinct parameter indices holding the same slot value, fail
when the first index's role is `Mutable` or `Output`, or when the second
index's role is not `Input` (mirroring the source's two checks in order). -/
def validate_same_variables_in_one_call (p : MFProcedure) : Bool :=
  p.callInstructions.all fun c =>
    (List.range c.fn.paramTypes.length).all fun i =>
      (List.range c.fn.paramTypes.length).all fun j =>
        if j = i then true
        else if c.params.getD j none ≠ c.params.getD i none then true
        else if (c.fn.paramTypes.getD i ⟨0, .Input⟩).interfaceType = .Mutable ∨
                (c.fn.paramTypes.getD i ⟨0, .Input⟩).interfaceType = .Output then false
        else decide ((c.fn.paramTypes.getD j ⟨0, .Input⟩).interfaceType = .Input)

/-- Helper for `validate_parameters`: the source inserts each parameter's
variable into a set and fails when the insertion reports the variable as
already present. -/
def paramsDistinct : List VarId → List (InterfaceType × VarId) → Bool
  | _, [] => true
  | seen, pr :: rest =>
    if pr.2 ∈ seen then false else paramsDistinct (pr.2 :: seen) rest

/-- `MFProcedure::validate_parameters`: one variable cannot be used as
multiple procedure parameters. -/
def validate_parameters (p : MFProcedure) : Bool :=
  paramsDistinct [] p.params

end MFProcedure

/-- `MFProcedure::InitState`: the two-bit may-initialized / may-uninitialized
state. Modelled from the spec where the struct body is missing from the
sources: both bits start `false`. -/
structure InitState where
  can_be_initialized : Bool := false
  can_be_uninitialized : Bool := false
deriving DecidableEq, Repr

namespace MFProcedure

/-- The `check_entry_instruction` lambda of
`find_initialization_state_before_instruction`: fold the entry state of the
target variable into the running state. The variable counts as initialized
by the caller when some procedure parameter lists it with role `Input` or
`Mutable` (the source scans `params_` and breaks at the first such match). -/
def check_entry_instruction (p : MFProcedure) (v : VarId) (s : InitState) : InitState :=
  let caller_initialized_variable :=
    p.params.any fun pr => pr.2 = v && (pr.1 = .Input || pr.1 = .Mutable)
  if caller_initialized_variable then
    { s with can_be_initialized := true }
  else
    { s with can_be_uninitialized := true }

/-- Whether a call instruction's payload has the target variable in an
`Output` slot (the inner loop of the `Call` case of the backward search). -/
def writesVarAsOutput (d : InstrData) (v : VarId) : Bool :=
  match d with
  | .call fn params _ =>
      (fn.paramTypes.zip params).any fun pr =>
        pr.2 = some v && pr.1.interfaceType = .Output
  | _ => false

/-- Whether the payload is a destruct of the target variable. -/
def destructsVar (d : InstrData) (v : VarId) : Bool :=
  match d with
  | .destruct w _ => w = some v
  | _ => false

/-- The `switch (instruction.type_)` body of the backward search: returns the
updated state and the `state_modified` flag. A call writing the target
variable in an `Output` slot sets `can_be_initialized`; a destruct of the
target variable sets `can_be_uninitialized`; branch, dummy and return (and
calls not writing the variable as output) leave the state unchanged. -/
def step_state (d : InstrData) (v : VarId) (s : InitState) : InitState × Bool :=
  match d with
  | .call fn params next =>
      if writesVarAsOutput (.call fn params next) v then
        ({ s with can_be_initialized := true }, true)
      else (s, false)
  | .destruct w next =>
      if destructsVar (.destruct w next) v then
        ({ s with can_be_uninitialized := true }, true)
      else (s, false)
  | _ => (s, false)

/-- State of the backward worklist search. `stack` is the source's
`instructions_to_check` (head = top of the stack), `visited` the
`checked_instructions` set. `pushed` and `processed` are ghost logs used
only to state properties of the run: `pushed` records every id ever pushed
onto the worklist (in order) and `processed` every id that passed the
visited check and was examined. -/
structure SearchState where
  stack : List InstrId
  visited : List InstrId
  state : InitState
  pushed : List InstrId
  processed : List InstrId
deriving DecidableEq, Repr

/-- One `while (!instructions_to_check.is_empty())` loop of the backward
search, running on explicit fuel. Returns the final search state and `true`
when the stack was exhausted (and `false` when the fuel ran out first; the
termination theorem shows the fuel bound used by the analysis suffices).
`push_multiple` of the source pushes a span in order onto a LIFO stack, so
pushing a `prev` list prepends its reverse to the head of `stack`. -/
def searchLoop (p : MFProcedure) (v : VarId) :
    Nat → SearchState → SearchState × Bool
  | fuel, st =>
    match st.stack with
    | [] => (st, true)
    | iid :: rest =>
      match fuel with
      | 0 => (st, false)
      | fuel' + 1 =>
        if iid ∈ st.visited then
          searchLoop p v fuel' { st with stack := rest }
        else
          match p.getInstr iid with
          | none =>
              searchLoop p v fuel'
                { st with stack := rest, visited := iid :: st.visited,
                          processed := iid :: st.processed }
          | some instr =>
            let sm := step_state instr.data v st.state
            if sm.2 then
              searchLoop p v fuel'
                { st with stack := rest, visited := iid :: st.visited,
                          state := sm.1, processed := iid :: st.processed }
            else
              searchLoop p v fuel'
                { stack := instr.prev.reverse ++ rest,
                  visited := iid :: st.visited,
                  state := if p.entry = some iid then
                             check_entry_instruction p v sm.1
                           else sm.1,
                  pushed := st.pushed ++ instr.prev,
                  processed := iid :: st.processed }

/-- Total length of all `prev` lists of the procedure; the fuel bound for
the worklist search is computed from it. -/
def totalPrev (p : MFProcedure) : Nat :=
  (p.instructions.map fun ins => ins.prev.length).sum

/-- Fuel sufficient for the worklist search to drain its stack (proved by
the termination theorem): an upper bound for the measure
`stack length + unvisited count * (1 + max prev length)`. -/
def searchFuel (p : MFProcedure) : Nat :=
  totalPrev p + totalPrev p * (1 + totalPrev p)

/-- The complete run of
`MFProcedure::find_initialization_state_before_instruction`, returning the
final search state (with its ghost logs) and the stack-exhausted flag. -/
def findInitSearch (p : MFProcedure) (tid : InstrId) (v : VarId) :
    SearchState × Bool :=
  match p.getInstr tid with
  | none => (⟨[], [], {}, [], []⟩, true)
  | some target =>
    let s0 : InitState := {}
    let s1 := if p.entry = some tid then check_entry_instruction p v s0 else s0
    searchLoop p v (searchFuel p)
      ⟨target.prev.reverse, [], s1, target.prev, []⟩

/-- `MFProcedure::find_initialization_state_before_instruction`: the init
state of the target variable immediately before the target instruction,
computed by the backward worklist search. -/
def find_initialization_state_before_instruction
    (p : MFProcedure) (tid : InstrId) (v : VarId) : InitState :=
  (findInitSearch p tid v).1.state

/-- Membership test of the source's
`variables_that_should_be_initialized_on_return` set: the variable is
listed as a procedure parameter with role `Mutable` or `Output`. -/
def shouldBeInitOnReturn (p : MFProcedure) (v : VarId) : Bool :=
  p.params.any fun pr => pr.2 = v && (pr.1 = .Mutable || pr.1 = .Output)

/-- `MFProcedure::validate_initialization`: destruct targets and branch
conditions must be possibly initialized; call parameters must be possibly
initialized (`Input`/`Mutable`) or possibly uninitialized (`Output`); at
every return, parameters with role `Mutable`/`Output` must be possibly
initialized and every other variable possibly uninitialized. A null slot
is skipped (the source dereferences it; inside `validate` the earlier
stages guarantee all slots are set). -/
def validate_initialization (p : MFProcedure) : Bool :=
  (p.destructInstructions.all fun d =>
    match d.variable_ with
    | some v => (p.find_initialization_state_before_instruction d.id v).can_be_initialized
    | none => true) &&
  (p.branchInstructions.all fun b =>
    match b.condition with
    | some v => (p.find_initialization_state_before_instruction b.id v).can_be_initialized
    | none => true) &&
  (p.callInstructions.all fun c =>
    (List.range c.fn.paramTypes.length).all fun i =>
      match c.params.getD i none with
      | some v =>
        match (c.fn.paramTypes.getD i ⟨0, .Input⟩).interfaceType with
        | .Input | .Mutable =>
            (p.find_initialization_state_before_instruction c.id v).can_be_initialized
        | .Output =>
            (p.find_initialization_state_before_instruction c.id v).can_be_uninitialized
      | none => true) &&
  (p.returnInstructions.all fun r =>
    (List.range p.variables_.length).all fun v =>
      if shouldBeInitOnReturn p v then
        (p.find_initialization_state_before_instruction r v).can_be_initialized
      else
        (p.find_initialization_state_before_instruction r v).can_be_uninitialized)

/-- `MFProcedure::validate`: the early-return chain of the six stages. -/
def validate (p : MFProcedure) : Bool :=
  if p.entry = none then false
  else if !p.validate_all_instruction_pointers_set then false
  else if !p.validate_all_params_provided then false
  else if !p.validate_same_variables_in_one_call then false
  else if !p.validate_parameters then false
  else if !p.validate_initialization then false
  else true

end MFProcedure

/-- `has_to_be_block_begin`: the instruction is the procedure entry, or its
`prev` list does not have exactly one element, or its sole predecessor is a
branch instruction. -/
def has_to_be_block_begin (p : MFProcedure) (iid : InstrId) : Bool :=
  if p.entry = some iid then true
  else
    match p.getInstr iid with
    | none => false
    | some ins =>
      if ins.prev.length ≠ 1 then true
      else
        match p.getInstr (ins.prev.getD 0 0) with
        | some pins =>
          match pins.data with
          | .branch _ _ _ => true
          | _ => false
        | none => false

open MFProcedure

/-! ## Concrete procedures used as test inputs -/

/-- A multi-function `F(in x) → out y` over one data type. -/
def exF : MultiFunction := ⟨[⟨0, .Input⟩, ⟨0, .Output⟩]⟩

/-- A multi-function `F2() → out y`. -/
def exF2 : MultiFunction := ⟨[⟨0, .Output⟩]⟩

/-- A valid procedure: parameters `(Input a)`, `(Output b)`; body
`Call F(in a, out b) → Destruct a → Return`. -/
def exProc1 : MFProcedure := {
  variables_ := [⟨0, "a", [0, 1]⟩, ⟨0, "b", [0]⟩],
  instructions := [
    ⟨.call exF [some 0, some 1] (some 1), []⟩,
    ⟨.destruct (some 0) (some 2), [0]⟩,
    ⟨.ret, [1]⟩],
  params := [(.Input, 0), (.Output, 1)],
  entry := some 0 }

/-- A procedure with an unreachable destruct instruction: the entry is the
return instruction; instruction 1 destructs variable 0 and falls through to
the return, but nothing reaches it. -/
def exProcUnreachable : MFProcedure := {
  variables_ := [⟨0, "", [1]⟩],
  instructions := [
    ⟨.ret, [1]⟩,
    ⟨.destruct (some 0) (some 0), []⟩],
  params := [],
  entry := some 0 }

/-- A looping procedure: `Branch cond → (true: Call F2(out v) → Destruct v
→ back to Branch) (false: Return)`, with `cond` a `Mutable` parameter. -/
def exProcLoop : MFProcedure := {
  variables_ := [⟨0, "cond", [0]⟩, ⟨0, "v", [1, 2]⟩],
  instructions := [
    ⟨.branch (some 0) (some 1) (some 3), [2]⟩,
    ⟨.call exF2 [some 1] (some 2), [0]⟩,
    ⟨.destruct (some 1) (some 0), [1]⟩,
    ⟨.ret, [0]⟩],
  params := [(.Mutable, 0)],
  entry := some 0 }

/-- A procedure whose branch has both arms targeting the same dummy, so the
dummy's `prev` list holds the branch twice. -/
def exProcDoubleEdge : MFProcedure := {
  variables_ := [⟨0, "", [0]⟩],
  instructions := [
    ⟨.branch (some 0) (some 1) (some 1), []⟩,
    ⟨.dummy (some 2), [0, 0]⟩,
    ⟨.ret, [1]⟩],
  params := [(.Input, 0)],
  entry := some 0 }

/-! ## C9: characterization of `has_to_be_block_begin` -/

/-- **C9.** An instruction begins a basic block iff it is the procedure
entry, or its `prev` list has size different from one, or its sole
predecessor is a branch instruction. -/
theorem claim_C9_block_begin_iff (p : MFProcedure) (iid : InstrId)
    (ins : MFInstruction) (hins : p.getInstr iid = some ins) :
    has_to_be_block_begin p iid = true ↔
      p.entry = some iid ∨ ins.prev.length ≠ 1 ∨
      (∃ pid pins, ins.prev = [pid] ∧ p.getInstr pid = some pins ∧
        ∃ c t f, pins.data = InstrData.branch c t f) := by
  unfold has_to_be_block_begin
  rw [hins]
  by_cases he : p.entry = some iid
  · simp [he]
  · simp only [he, if_false, false_or]
    by_cases hl : ins.prev.length = 1
    · obtain ⟨pid, hpid⟩ := List.length_eq_one.mp hl
      rw [hpid]
      cases hp : p.getInstr pid with
      | none => simp [hp, hpid]
      | some pins =>
        cases hd : pins.data <;>
          simp_all [hpid, InstrData.branch.injEq]
    · simp [hl]

/-- Witness for C9: instruction 2 of the unreachable-destruct procedure has
the destruct as sole (non-branch) predecessor and is not a block begin...
here instead: the dummy of the double-edge procedure has two predecessors
and so begins a block. -/
theorem claim_C9_block_begin_iff_witness :
    has_to_be_block_begin exProcDoubleEdge 1 = true ↔
      exProcDoubleEdge.entry = some 1 ∨
      (⟨.dummy (some 2), [0, 0]⟩ : MFInstruction).prev.length ≠ 1 ∨
      (∃ pid pins,
        (⟨.dummy (some 2), [0, 0]⟩ : MFInstruction).prev = [pid] ∧
        exProcDoubleEdge.getInstr pid = some pins ∧
        ∃ c t f, pins.data = InstrData.branch c t f) :=
  claim_C9_block_begin_iff exProcDoubleEdge 1 ⟨.dummy (some 2), [0, 0]⟩ (by decide)

/-! ## C4: the entry state folded in by the analysis -/

/-- **C4.** The entry state folded in for a variable: it is marked possibly
initialized when some procedure parameter lists it with role `Input` or
`Mutable`; it is marked possibly uninitialized when it is listed only with
role `Output`, and also when it is not a procedure parameter at all. -/
theorem claim_C4_entry_state (p : MFProcedure) (v : VarId) (s : InitState) :
    ((∃ pr ∈ p.params, pr.2 = v ∧
        (pr.1 = InterfaceType.Input ∨ pr.1 = InterfaceType.Mutable)) →
      check_entry_instruction p v s = { s with can_be_initialized := true }) ∧
    (((∃ pr ∈ p.params, pr.2 = v) ∧
        (∀ pr ∈ p.params, pr.2 = v → pr.1 = InterfaceType.Output)) →
      check_entry_instruction p v s = { s with can_be_uninitialized := true }) ∧
    ((∀ pr ∈ p.params, pr.2 ≠ v) →
      check_entry_instruction p v s = { s with can_be_uninitialized := true }) := by
  unfold check_entry_instruction
  refine ⟨fun h => ?_, fun h => ?_, fun h => ?_⟩
  · have : p.params.any (fun pr => pr.2 = v && (pr.1 = .Input || pr.1 = .Mutable)) = true := by
      rw [List.any_eq_true]
      obtain ⟨pr, hmem, hv, hrole⟩ := h
      exact ⟨pr, hmem, by simp [hv]; rcases hrole with h | h <;> simp [h]⟩
    simp [this]
  · have : p.params.any (fun pr => pr.2 = v && (pr.1 = .Input || pr.1 = .Mutable)) = false := by
      rw [Bool.eq_false_iff]
      intro hc
      rw [List.any_eq_true] at hc
      obtain ⟨pr, hmem, hpr⟩ := hc
      simp only [Bool.and_eq_true, Bool.or_eq_true, decide_eq_true_eq] at hpr
      have := h.2 pr hmem hpr.1
      rcases hpr.2 with hI | hM
      · rw [this] at hI; cases hI
      · rw [this] at hM; cases hM
    simp [this]
  · have : p.params.any (fun pr => pr.2 = v && (pr.1 = .Input || pr.1 = .Mutable)) = false := by
      rw [Bool.eq_false_iff]
      intro hc
      rw [List.any_eq_true] at hc
      obtain ⟨pr, hmem, hpr⟩ := hc
      simp only [Bool.and_eq_true, Bool.or_eq_true, decide_eq_true_eq] at hpr
      exact h pr hmem hpr.1
    simp [this]

/-- Witness for C4: in the valid example procedure, variable 0 is an
`Input` parameter, so the entry fold marks it possibly initialized. -/
theorem claim_C4_entry_state_witness :
    check_entry_instruction exProc1 0 {} =
      { can_be_initialized := true, can_be_uninitialized := false } :=
  (claim_C4_entry_state exProc1 0 {}).1
    ⟨(InterfaceType.Input, 0), by decide, rfl, Or.inl rfl⟩

/-! ## C2: `validate` is the conjunction of the six stages -/

/-- `paramsDistinct` succeeds iff the variables of the parameter list are
distinct among themselves and from the seed set. -/
lemma paramsDistinct_iff (seen : List VarId) (l : List (InterfaceType × VarId)) :
    paramsDistinct seen l = true ↔
      (l.map Prod.snd).Nodup ∧ ∀ x ∈ l.map Prod.snd, x ∉ seen := by
  induction l generalizing seen with
  | nil => simp [paramsDistinct]
  | cons pr rest ih =>
    rw [show paramsDistinct seen (pr :: rest) =
        if pr.2 ∈ seen then false else paramsDistinct (pr.2 :: seen) rest from rfl]
    by_cases h : pr.2 ∈ seen
    · rw [if_pos h]
      simp only [List.map_cons]
      constructor
      · intro hc; exact (Bool.false_ne_true hc).elim
      · rintro ⟨hnd, hall⟩
        exact absurd h (hall pr.2 (List.mem_cons_self _ _))
    · rw [if_neg h, ih]
      simp only [List.map_cons, List.nodup_cons]
      constructor
      · rintro ⟨hnd, hall⟩
        refine ⟨⟨fun hmem => ?_, hnd⟩, fun x hx => ?_⟩
        · exact (hall pr.2 hmem) (List.mem_cons_self pr.2 seen)
        · rcases List.mem_cons.mp hx with rfl | hx2
          · exact h
          · exact fun hxs => (hall x hx2) (List.mem_cons_of_mem pr.2 hxs)
      · rintro ⟨⟨hnin, hnd⟩, hall⟩
        refine ⟨hnd, fun x hx hxmem => ?_⟩
        rcases List.mem_cons.mp hxmem with rfl | hxseen
        · exact hnin hx
        · exact (hall x (List.mem_cons_of_mem pr.2 hx)) hxseen

/-- `validate_parameters` succeeds iff no variable repeats in `params`. -/
lemma validate_parameters_iff (p : MFProcedure) :
    p.validate_parameters = true ↔ (p.params.map Prod.snd).Nodup := by
  rw [MFProcedure.validate_parameters, paramsDistinct_iff]
  simp

/-- The early-return chain of `validate` as a boolean conjunction. -/
lemma ite_chain_eq_and (a b c d e : Bool) :
    (if !a then false
     else if !b then false
     else if !c then false
     else if !d then false
     else if !e then false
     else true) = (a && b && c && d && e) := by
  cases a <;> cases b <;> cases c <;> cases d <;> cases e <;> rfl

/-- **C2.** `validate()` returns true iff all six stages pass: non-null
entry; all successor pointers set; all operands present; the per-call
aliasing rule; procedure-parameter uniqueness; and the initialization
analysis. (The stages are evaluated in this order with early return; for
the boolean result the chain is the conjunction below.) -/
theorem claim_C2_validate_iff (p : MFProcedure) :
    p.validate = true ↔
      p.entry.isSome = true ∧
      ((∀ c ∈ p.callInstructions, c.next.isSome = true) ∧
       (∀ d ∈ p.destructInstructions, d.next.isSome = true) ∧
       (∀ b ∈ p.branchInstructions,
          b.branchTrue.isSome = true ∧ b.branchFalse.isSome = true) ∧
       (∀ d ∈ p.dummyInstructions, d.next.isSome = true)) ∧
      ((∀ c ∈ p.callInstructions, ∀ q ∈ c.params, q.isSome = true) ∧
       (∀ b ∈ p.branchInstructions, b.condition.isSome = true) ∧
       (∀ d ∈ p.destructInstructions, d.variable_.isSome = true)) ∧
      p.validate_same_variables_in_one_call = true ∧
      (p.params.map Prod.snd).Nodup ∧
      p.validate_initialization = true := by
  by_cases h1 : p.entry = none
  · simp [MFProcedure.validate, h1]
  · have hidem : p.validate =
        (p.validate_all_instruction_pointers_set &&
         p.validate_all_params_provided &&
         p.validate_same_variables_in_one_call &&
         p.validate_parameters &&
         p.validate_initialization) := by
      rw [MFProcedure.validate]
      rw [if_neg h1]
      exact ite_chain_eq_and _ _ _ _ _
    rw [hidem]
    have hsome : p.entry.isSome = true := Option.isSome_iff_ne_none.mpr h1
    simp only [Bool.and_eq_true, hsome, true_and, validate_parameters_iff,
      MFProcedure.validate_all_instruction_pointers_set,
      MFProcedure.validate_all_params_provided, List.all_eq_true,
      Bool.and_eq_true]
    tauto

/-- Witness for C2 at the valid example procedure. -/
theorem claim_C2_validate_iff_witness :
    exProc1.validate = true ↔
      exProc1.entry.isSome = true ∧
      ((∀ c ∈ exProc1.callInstructions, c.next.isSome = true) ∧
       (∀ d ∈ exProc1.destructInstructions, d.next.isSome = true) ∧
       (∀ b ∈ exProc1.branchInstructions,
          b.branchTrue.isSome = true ∧ b.branchFalse.isSome = true) ∧
       (∀ d ∈ exProc1.dummyInstructions, d.next.isSome = true)) ∧
      ((∀ c ∈ exProc1.callInstructions, ∀ q ∈ c.params, q.isSome = true) ∧
       (∀ b ∈ exProc1.branchInstructions, b.condition.isSome = true) ∧
       (∀ d ∈ exProc1.destructInstructions, d.variable_.isSome = true)) ∧
      exProc1.validate_same_variables_in_one_call = true ∧
      (exProc1.params.map Prod.snd).Nodup ∧
      exProc1.validate_initialization = true :=
  claim_C2_validate_iff exProc1

/-! ## C7: characterization of the per-call aliasing rule -/

/-- A call with a `Mutable` alias: `H(mut x, in y)` with the same variable
in both slots. -/
def exProcAlias : MFProcedure := {
  variables_ := [⟨0, "", [0, 0]⟩],
  instructions := [
    ⟨.call ⟨[⟨0, .Mutable⟩, ⟨0, .Input⟩]⟩ [some 0, some 0] (some 1), []⟩,
    ⟨.ret, [0]⟩],
  params := [(.Mutable, 0)],
  entry := some 0 }

/-- **C7.** Under the precondition that every call's parameter vector has
the function's parameter count and all slots are set (which `validate`
establishes before running this stage), the aliasing check fails exactly
when some variable occupies a `Mutable` or `Output` slot of a call and
also occupies another slot of the same call. In particular a variable
occupying several `Input` slots only is accepted. -/
theorem claim_C7_aliasing_iff (p : MFProcedure)
    (hlen : ∀ c ∈ p.callInstructions, c.params.length = c.fn.paramTypes.length)
    (hprov : ∀ c ∈ p.callInstructions, ∀ q ∈ c.params, q.isSome = true) :
    p.validate_same_variables_in_one_call = false ↔
      ∃ c ∈ p.callInstructions, ∃ v : VarId, ∃ i j,
        i < c.fn.paramTypes.length ∧ j < c.fn.paramTypes.length ∧ i ≠ j ∧
        c.params.getD i none = some v ∧ c.params.getD j none = some v ∧
        ((c.fn.paramTypes.getD i ⟨0, .Input⟩).interfaceType = .Mutable ∨
         (c.fn.paramTypes.getD i ⟨0, .Input⟩).interfaceType = .Output) := by
  rw [MFProcedure.validate_same_variables_in_one_call, List.all_eq_false]
  constructor
  · rintro ⟨c, hcmem, hc⟩
    rw [Bool.not_eq_true, List.all_eq_false] at hc
    obtain ⟨i, hirange, hi⟩ := hc
    rw [Bool.not_eq_true, List.all_eq_false] at hi
    obtain ⟨j, hjrange, hj⟩ := hi
    rw [Bool.not_eq_true] at hj
    have hiN := List.mem_range.mp hirange
    have hjN := List.mem_range.mp hjrange
    by_cases hji : j = i
    · rw [if_pos hji] at hj; cases hj
    rw [if_neg hji] at hj
    by_cases hv : c.params.getD j none ≠ c.params.getD i none
    · rw [if_pos hv] at hj; cases hj
    rw [if_neg hv] at hj
    push_neg at hv
    -- the shared slot value is non-null
    have hvi : ∃ v : VarId, c.params.getD i none = some v := by
      have hi' : i < c.params.length := by rw [hlen c hcmem]; exact hiN
      have : c.params.getD i none = c.params[i] := by
        rw [List.getD_eq_getElem?_getD, List.getElem?_eq_getElem hi']
        rfl
      rw [this]
      have := hprov c hcmem (c.params[i]) (List.getElem_mem hi')
      exact Option.isSome_iff_exists.mp this
    obtain ⟨v, hv0⟩ := hvi
    by_cases hrole :
        (c.fn.paramTypes.getD i ⟨0, .Input⟩).interfaceType = .Mutable ∨
        (c.fn.paramTypes.getD i ⟨0, .Input⟩).interfaceType = .Output
    · exact ⟨c, hcmem, v, i, j, hiN, hjN, fun h => hji h.symm,
        hv0, by rw [hv, hv0], hrole⟩
    · -- the source then checks the role of the other index
      rw [if_neg hrole] at hj
      have hjrole : (c.fn.paramTypes.getD j ⟨0, .Input⟩).interfaceType ≠ .Input := by
        intro hcon
        rw [hcon] at hj
        exact absurd hj (by decide)
      have hjMO : (c.fn.paramTypes.getD j ⟨0, .Input⟩).interfaceType = .Mutable ∨
          (c.fn.paramTypes.getD j ⟨0, .Input⟩).interfaceType = .Output := by
        cases h : (c.fn.paramTypes.getD j ⟨0, .Input⟩).interfaceType
        · exact absurd h hjrole
        · exact Or.inl rfl
        · exact Or.inr rfl
      exact ⟨c, hcmem, v, j, i, hjN, hiN, hji, by rw [hv, hv0], hv0, hjMO⟩
  · rintro ⟨c, hcmem, v, i, j, hiN, hjN, hij, hpi, hpj, hrole⟩
    refine ⟨c, hcmem, ?_⟩
    rw [Bool.not_eq_true, List.all_eq_false]
    refine ⟨i, List.mem_range.mpr hiN, ?_⟩
    rw [Bool.not_eq_true, List.all_eq_false]
    refine ⟨j, List.mem_range.mpr hjN, ?_⟩
    rw [Bool.not_eq_true]
    rw [if_neg (fun h => hij h.symm)]
    rw [if_neg (by rw [hpi, hpj]; exact fun h => h rfl)]
    rw [if_pos hrole]

/-- Witness for C7: the mutable-alias call fails the check. -/
theorem claim_C7_aliasing_iff_witness :
    exProcAlias.validate_same_variables_in_one_call = false :=
  (claim_C7_aliasing_iff exProcAlias (by decide) (by decide)).mpr
    ⟨⟨0, ⟨[⟨0, .Mutable⟩, ⟨0, .Input⟩]⟩, [some 0, some 0], some 1⟩, by decide,
      0, 0, 1, by decide, by decide, by decide, by decide, by decide, by decide⟩

/-! ## C5: requirements at return instructions -/

/-- If `validate` succeeds, every individual stage succeeded. -/
lemma validate_true_parts (p : MFProcedure) (h : p.validate = true) :
    p.entry ≠ none ∧
    p.validate_all_instruction_pointers_set = true ∧
    p.validate_all_params_provided = true ∧
    p.validate_same_variables_in_one_call = true ∧
    p.validate_parameters = true ∧
    p.validate_initialization = true := by
  rw [MFProcedure.validate] at h
  by_cases h1 : p.entry = none
  · rw [if_pos h1] at h; cases h
  · rw [if_neg h1, ite_chain_eq_and] at h
    simp only [Bool.and_eq_true] at h
    exact ⟨h1, h.1.1.1.1, h.1.1.1.2, h.1.1.2, h.1.2, h.2⟩

/-- The return-set membership test matches its defining existential. -/
lemma shouldBeInitOnReturn_iff (p : MFProcedure) (v : VarId) :
    shouldBeInitOnReturn p v = true ↔
      ∃ pr ∈ p.params, pr.2 = v ∧
        (pr.1 = InterfaceType.Mutable ∨ pr.1 = InterfaceType.Output) := by
  rw [MFProcedure.shouldBeInitOnReturn, List.any_eq_true]
  simp only [Bool.and_eq_true, Bool.or_eq_true, decide_eq_true_eq]

/-- **C5.** For every return instruction and every variable of the
procedure, a validated procedure satisfies: a variable listed as a
procedure parameter with role `Mutable` or `Output` is possibly
initialized in the state computed before the return, and every other
variable is possibly uninitialized there. (Contrapositively, any violation
makes `validate()` return false.) -/
theorem claim_C5_return_requirements (p : MFProcedure) (hval : p.validate = true) :
    ∀ r ∈ p.returnInstructions, ∀ v : VarId, v < p.variables_.length →
      ((∃ pr ∈ p.params, pr.2 = v ∧
          (pr.1 = InterfaceType.Mutable ∨ pr.1 = InterfaceType.Output)) →
        (p.find_initialization_state_before_instruction r v).can_be_initialized = true) ∧
      ((¬ ∃ pr ∈ p.params, pr.2 = v ∧
          (pr.1 = InterfaceType.Mutable ∨ pr.1 = InterfaceType.Output)) →
        (p.find_initialization_state_before_instruction r v).can_be_uninitialized = true) := by
  intro r hr v hv
  have h6 := (validate_true_parts p hval).2.2.2.2.2
  rw [MFProcedure.validate_initialization] at h6
  simp only [Bool.and_eq_true] at h6
  have hall := List.all_eq_true.mp h6.2 r hr
  have hv' := List.all_eq_true.mp hall v (List.mem_range.mpr hv)
  constructor
  · intro hex
    have hs : shouldBeInitOnReturn p v = true := (shouldBeInitOnReturn_iff p v).mpr hex
    rwa [if_pos hs] at hv'
  · intro hnex
    have hs : ¬ shouldBeInitOnReturn p v = true := by
      intro hc
      exact hnex ((shouldBeInitOnReturn_iff p v).mp hc)
    rwa [if_neg hs] at hv'

/-- Witness for C5: before the return of the valid example procedure, the
`Output` parameter `b` is possibly initialized. -/
theorem claim_C5_return_requirements_witness :
    (exProc1.find_initialization_state_before_instruction 2 1).can_be_initialized = true :=
  (claim_C5_return_requirements exProc1 (by decide) 2 (by decide) 1 (by decide)).1
    ⟨(InterfaceType.Output, 1), by decide, rfl, Or.inr rfl⟩

/-! ## C1: a (false,false) state at an examined pair fails validation -/

/-- If the initialization stage fails, `validate` returns false. -/
lemma validate_false_of_stage6 (p : MFProcedure)
    (h : p.validate_initialization = false) : p.validate = false := by
  rw [MFProcedure.validate]
  by_cases h1 : p.entry = none
  · rw [if_pos h1]
  · rw [if_neg h1, ite_chain_eq_and, h]
    simp

/-- A boolean conjunction is false when a component is. -/
lemma and4_eq_false (a b c d : Bool)
    (h : a = false ∨ b = false ∨ c = false ∨ d = false) :
    (a && b && c && d) = false := by
  revert h
  cases a <;> cases b <;> cases c <;> cases d <;> decide

/-- Counterexample to C1: in the unreachable-destruct procedure the state
computed before the destruct instruction (instruction 1) for its target
variable has both bits false, yet `validate()` returns false, and every
stage other than the initialization analysis passes — so validation fails
precisely on account of that pair instead of treating it as vacuously
valid. -/
theorem claim_C1_counterexample :
    exProcUnreachable.find_initialization_state_before_instruction 1 0 =
      ⟨false, false⟩ ∧
    exProcUnreachable.validate = false ∧
    exProcUnreachable.entry.isSome = true ∧
    exProcUnreachable.validate_all_instruction_pointers_set = true ∧
    exProcUnreachable.validate_all_params_provided = true ∧
    exProcUnreachable.validate_same_variables_in_one_call = true ∧
    exProcUnreachable.validate_parameters = true ∧
    exProcUnreachable.validate_initialization = false := by
  decide

/-- **C1 (amended).** If the state computed before an examined pair
(destruct target, branch condition, call parameter, or any variable at a
return) has both bits false, the corresponding requirement fails — it
demands one of the two bits — so `validate_initialization` and hence
`validate()` return false; the pair is not treated as vacuously valid. -/
theorem claim_C1_amended_both_false_fails (p : MFProcedure) :
    (∀ d ∈ p.destructInstructions, ∀ v : VarId, d.variable_ = some v →
      p.find_initialization_state_before_instruction d.id v = ⟨false, false⟩ →
      p.validate_initialization = false ∧ p.validate = false) ∧
    (∀ b ∈ p.branchInstructions, ∀ v : VarId, b.condition = some v →
      p.find_initialization_state_before_instruction b.id v = ⟨false, false⟩ →
      p.validate_initialization = false ∧ p.validate = false) ∧
    (∀ c ∈ p.callInstructions, ∀ i, i < c.fn.paramTypes.length →
      ∀ v : VarId, c.params.getD i none = some v →
      p.find_initialization_state_before_instruction c.id v = ⟨false, false⟩ →
      p.validate_initialization = false ∧ p.validate = false) ∧
    (∀ r ∈ p.returnInstructions, ∀ v : VarId, v < p.variables_.length →
      p.find_initialization_state_before_instruction r v = ⟨false, false⟩ →
      p.validate_initialization = false ∧ p.validate = false) := by
  refine ⟨?_, ?_, ?_, ?_⟩
  · intro d hd v hveq hfind
    have hA : (p.destructInstructions.all fun dd =>
        match dd.variable_ with
        | some w =>
          (p.find_initialization_state_before_instruction dd.id w).can_be_initialized
        | none => true) = false := by
      rw [List.all_eq_false]
      refine ⟨d, hd, ?_⟩
      simp only [hveq, hfind]
      decide
    have h6 : p.validate_initialization = false := by
      rw [MFProcedure.validate_initialization]
      exact and4_eq_false _ _ _ _ (Or.inl hA)
    exact ⟨h6, validate_false_of_stage6 p h6⟩
  · intro b hb v hveq hfind
    have hB : (p.branchInstructions.all fun bb =>
        match bb.condition with
        | some w =>
          (p.find_initialization_state_before_instruction bb.id w).can_be_initialized
        | none => true) = false := by
      rw [List.all_eq_false]
      refine ⟨b, hb, ?_⟩
      simp only [hveq, hfind]
      decide
    have h6 : p.validate_initialization = false := by
      rw [MFProcedure.validate_initialization]
      exact and4_eq_false _ _ _ _ (Or.inr (Or.inl hB))
    exact ⟨h6, validate_false_of_stage6 p h6⟩
  · intro c hc i hi v hveq hfind
    have hC : (p.callInstructions.all fun cc =>
        (List.range cc.fn.paramTypes.length).all fun k =>
          match cc.params.getD k none with
          | some w =>
            match (cc.fn.paramTypes.getD k ⟨0, .Input⟩).interfaceType with
            | .Input | .Mutable =>
                (p.find_initialization_state_before_instruction cc.id w).can_be_initialized
            | .Output =>
                (p.find_initialization_state_before_instruction cc.id w).can_be_uninitialized
          | none => true) = false := by
      rw [List.all_eq_false]
      refine ⟨c, hc, ?_⟩
      rw [Bool.not_eq_true, List.all_eq_false]
      refine ⟨i, List.mem_range.mpr hi, ?_⟩
      simp only [hveq, hfind]
      cases (c.fn.paramTypes.getD i ⟨0, .Input⟩).interfaceType <;> decide
    have h6 : p.validate_initialization = false := by
      rw [MFProcedure.validate_initialization]
      exact and4_eq_false _ _ _ _ (Or.inr (Or.inr (Or.inl hC)))
    exact ⟨h6, validate_false_of_stage6 p h6⟩
  · intro r hr v hv hfind
    have hD : (p.returnInstructions.all fun rr =>
        (List.range p.variables_.length).all fun w =>
          if shouldBeInitOnReturn p w then
            (p.find_initialization_state_before_instruction rr w).can_be_initialized
          else
            (p.find_initialization_state_before_instruction rr w).can_be_uninitialized) =
        false := by
      rw [List.all_eq_false]
      refine ⟨r, hr, ?_⟩
      rw [Bool.not_eq_true, List.all_eq_false]
      refine ⟨v, List.mem_range.mpr hv, ?_⟩
      by_cases hs : shouldBeInitOnReturn p v = true
      · rw [if_pos hs, hfind]; decide
      · rw [if_neg hs, hfind]; decide
    have h6 : p.validate_initialization = false := by
      rw [MFProcedure.validate_initialization]
      exact and4_eq_false _ _ _ _ (Or.inr (Or.inr (Or.inr hD)))
    exact ⟨h6, validate_false_of_stage6 p h6⟩

/-- Witness for the amended C1 at the unreachable-destruct procedure. -/
theorem claim_C1_amended_both_false_fails_witness :
    exProcUnreachable.validate_initialization = false ∧
    exProcUnreachable.validate = false :=
  (claim_C1_amended_both_false_fails exProcUnreachable).1
    ⟨1, some 0, some 0⟩ (by decide) 0 rfl (by decide)

/-! ## C3: one step of the backward worklist search -/

/-- Unfolding: an empty worklist ends the search (completed). -/
lemma searchLoop_nil (p : MFProcedure) (v : VarId) (fuel : Nat)
    (visited pushed processed : List InstrId) (s : InitState) :
    searchLoop p v fuel ⟨[], visited, s, pushed, processed⟩ =
      (⟨[], visited, s, pushed, processed⟩, true) := by
  rw [searchLoop]

/-- Unfolding: a popped instruction already in the visited set is skipped. -/
lemma searchLoop_cons_visited (p : MFProcedure) (v : VarId) (fuel : Nat)
    (iid : InstrId) (rest visited pushed processed : List InstrId)
    (s : InitState) (hvis : iid ∈ visited) :
    searchLoop p v (fuel + 1) ⟨iid :: rest, visited, s, pushed, processed⟩ =
      searchLoop p v fuel ⟨rest, visited, s, pushed, processed⟩ := by
  rw [searchLoop]
  simp only [if_pos hvis]

/-- Unfolding: a popped id with no instruction behind it (impossible in the
source, where ids are pointers) is recorded and dropped. -/
lemma searchLoop_cons_none (p : MFProcedure) (v : VarId) (fuel : Nat)
    (iid : InstrId) (rest visited pushed processed : List InstrId)
    (s : InitState) (hvis : iid ∉ visited) (hget : p.getInstr iid = none) :
    searchLoop p v (fuel + 1) ⟨iid :: rest, visited, s, pushed, processed⟩ =
      searchLoop p v fuel
        ⟨rest, iid :: visited, s, pushed, iid :: processed⟩ := by
  rw [searchLoop]
  simp only [if_neg hvis, hget]

/-- Unfolding: processing a not-yet-visited instruction runs the
`state_modified` switch and either stops the branch or pushes the
predecessors. -/
lemma searchLoop_cons_unvisited (p : MFProcedure) (v : VarId) (fuel : Nat)
    (iid : InstrId) (rest visited pushed processed : List InstrId)
    (s : InitState) (instr : MFInstruction)
    (hvis : iid ∉ visited) (hget : p.getInstr iid = some instr) :
    searchLoop p v (fuel + 1) ⟨iid :: rest, visited, s, pushed, processed⟩ =
      if (step_state instr.data v s).2 then
        searchLoop p v fuel
          ⟨rest, iid :: visited, (step_state instr.data v s).1, pushed,
           iid :: processed⟩
      else
        searchLoop p v fuel
          ⟨instr.prev.reverse ++ rest, iid :: visited,
           (if p.entry = some iid then
              check_entry_instruction p v (step_state instr.data v s).1
            else (step_state instr.data v s).1),
           pushed ++ instr.prev, iid :: processed⟩ := by
  rw [searchLoop]
  simp only [if_neg hvis, hget]

/-- `step_state` through the two discriminators of the claim. -/
lemma step_state_eq (d : InstrData) (v : VarId) (s : InitState) :
    step_state d v s =
      if writesVarAsOutput d v then ({ s with can_be_initialized := true }, true)
      else if destructsVar d v then
        ({ s with can_be_uninitialized := true }, true)
      else (s, false) := by
  cases d <;> simp [step_state, writesVarAsOutput, destructsVar]

/-- **C3.** When an unvisited instruction is popped from the worklist: a
call writing the target variable in an `Output` slot sets
`can_be_initialized` and its predecessors are not pushed; otherwise a
destruct of the target variable sets `can_be_uninitialized` and its
predecessors are not pushed; in every other case the state is unchanged
except that the entry state is folded in when the instruction is the
procedure entry, and its predecessors are pushed onto the worklist. -/
theorem claim_C3_search_step (p : MFProcedure) (v : VarId) (fuel : Nat)
    (iid : InstrId) (rest visited pushed processed : List InstrId)
    (s : InitState) (instr : MFInstruction)
    (hvis : iid ∉ visited) (hget : p.getInstr iid = some instr) :
    (writesVarAsOutput instr.data v = true →
      searchLoop p v (fuel + 1) ⟨iid :: rest, visited, s, pushed, processed⟩ =
      searchLoop p v fuel
        ⟨rest, iid :: visited, { s with can_be_initialized := true }, pushed,
         iid :: processed⟩) ∧
    (writesVarAsOutput instr.data v = false →
     destructsVar instr.data v = true →
      searchLoop p v (fuel + 1) ⟨iid :: rest, visited, s, pushed, processed⟩ =
      searchLoop p v fuel
        ⟨rest, iid :: visited, { s with can_be_uninitialized := true }, pushed,
         iid :: processed⟩) ∧
    (writesVarAsOutput instr.data v = false →
     destructsVar instr.data v = false →
      searchLoop p v (fuel + 1) ⟨iid :: rest, visited, s, pushed, processed⟩ =
      searchLoop p v fuel
        ⟨instr.prev.reverse ++ rest, iid :: visited,
         (if p.entry = some iid then check_entry_instruction p v s else s),
         pushed ++ instr.prev, iid :: processed⟩) := by
  have hun := searchLoop_cons_unvisited p v fuel iid rest visited pushed
    processed s instr hvis hget
  rw [step_state_eq] at hun
  refine ⟨fun hw => ?_, fun hw hd => ?_, fun hw hd => ?_⟩
  · simp only [hw] at hun
    simpa using hun
  · simp only [hw, hd] at hun
    simpa using hun
  · simp only [hw, hd] at hun
    simpa using hun

/-- Witness for C3: popping the call of the loop procedure while searching
for its output variable sets `can_be_initialized` and stops the branch. -/
theorem claim_C3_search_step_witness :
    searchLoop exProcLoop 1 1 ⟨[1], [], {}, [1], []⟩ =
      searchLoop exProcLoop 1 0
        ⟨[], [1], { can_be_initialized := true }, [1], [1]⟩ :=
  (claim_C3_search_step exProcLoop 1 0 1 [] [] [1] [] {}
    ⟨.call exF2 [some 1] (some 2), [0]⟩ (by decide) (by decide)).1 (by decide)

/-! ## C6: the backward search terminates; instructions are examined at
most once -/

/-- All `prev` entries of the procedure, concatenated: every id the search
can ever push is drawn from this list. -/
def prevFlatten (p : MFProcedure) : List InstrId :=
  (p.instructions.map fun ins => ins.prev).flatten

/-- Number of entries of `prevFlatten` not yet visited (counted with
multiplicity); the decreasing part of the termination measure. -/
def unvisitedCount (p : MFProcedure) (visited : List InstrId) : Nat :=
  ((prevFlatten p).filter fun x => decide (x ∉ visited)).length

/-- A successful instruction lookup yields a member of the list. -/
lemma getInstr_mem (p : MFProcedure) (i : InstrId) (ins : MFInstruction)
    (h : p.getInstr i = some ins) : ins ∈ p.instructions := by
  rw [MFProcedure.getInstr] at h
  obtain ⟨hi, rfl⟩ := List.getElem?_eq_some.mp h
  exact List.getElem_mem hi

/-- Ids in a member instruction's `prev` list occur in `prevFlatten`. -/
lemma mem_prevFlatten (p : MFProcedure) (ins : MFInstruction)
    (hins : ins ∈ p.instructions) (x : InstrId) (hx : x ∈ ins.prev) :
    x ∈ prevFlatten p := by
  rw [prevFlatten, List.mem_flatten]
  exact ⟨ins.prev, List.mem_map.mpr ⟨ins, hins, rfl⟩, hx⟩

/-- The length of `prevFlatten` is the total `prev` count. -/
lemma prevFlatten_length (p : MFProcedure) :
    (prevFlatten p).length = totalPrev p := by
  rw [prevFlatten, MFProcedure.totalPrev, List.length_flatten, List.map_map]
  rfl

/-- A member instruction's `prev` list is no longer than the total. -/
lemma prev_length_le_totalPrev (p : MFProcedure) (ins : MFInstruction)
    (hins : ins ∈ p.instructions) : ins.prev.length ≤ totalPrev p := by
  rw [MFProcedure.totalPrev]
  exact List.single_le_sum (fun a _ => Nat.zero_le a) _
    (List.mem_map.mpr ⟨ins, hins, rfl⟩)

/-- The unvisited count is bounded by the total `prev` count. -/
lemma unvisitedCount_le (p : MFProcedure) (visited : List InstrId) :
    unvisitedCount p visited ≤ totalPrev p := by
  rw [unvisitedCount, ← prevFlatten_length]
  exact List.length_filter_le _ _

/-- Visiting a fresh id that occurs in `prevFlatten` strictly decreases the
unvisited count. -/
lemma unvisitedCount_cons_lt (p : MFProcedure) (iid : InstrId)
    (visited : List InstrId) (hiU : iid ∈ prevFlatten p)
    (hni : iid ∉ visited) :
    unvisitedCount p (iid :: visited) < unvisitedCount p visited := by
  rw [unvisitedCount, unvisitedCount]
  have hsub : List.Sublist
      ((prevFlatten p).filter fun x => decide (x ∉ iid :: visited))
      ((prevFlatten p).filter fun x => decide (x ∉ visited)) := by
    apply List.monotone_filter_right
    intro a ha
    simp only [decide_eq_true_eq] at ha ⊢
    exact fun hmem => ha (List.mem_cons_of_mem _ hmem)
  refine Nat.lt_of_le_of_ne hsub.length_le fun heq => ?_
  have hlists := hsub.eq_of_length heq
  have hmem : iid ∈ (prevFlatten p).filter fun x => decide (x ∉ visited) :=
    List.mem_filter.mpr ⟨hiU, by simpa using hni⟩
  rw [← hlists] at hmem
  have := (List.mem_filter.mp hmem).2
  simp at this

/-- Unfolding: with no fuel and a non-empty worklist, the search stops
incomplete. -/
lemma searchLoop_zero_cons (p : MFProcedure) (v : VarId) (iid : InstrId)
    (rest visited pushed processed : List InstrId) (s : InitState) :
    searchLoop p v 0 ⟨iid :: rest, visited, s, pushed, processed⟩ =
      (⟨iid :: rest, visited, s, pushed, processed⟩, false) := by
  rw [searchLoop]

/-- With fuel at least `stack length + unvisited count * (1 + total prev
count)`, the worklist search drains its stack. -/
lemma searchLoop_completes (p : MFProcedure) (v : VarId) :
    ∀ (fuel : Nat) (stack visited pushed processed : List InstrId)
      (s : InitState),
      (∀ i ∈ stack, i ∈ prevFlatten p) →
      stack.length + unvisitedCount p visited * (1 + totalPrev p) ≤ fuel →
      (searchLoop p v fuel ⟨stack, visited, s, pushed, processed⟩).2 = true := by
  intro fuel
  induction fuel with
  | zero =>
    intro stack visited pushed processed s hsub hm
    have hlen : stack.length = 0 := by omega
    obtain rfl := List.length_eq_zero.mp hlen
    rw [searchLoop_nil]
  | succ fuel ih =>
    intro stack visited pushed processed s hsub hm
    cases stack with
    | nil => rw [searchLoop_nil]
    | cons iid rest =>
      have hrest : ∀ i ∈ rest, i ∈ prevFlatten p := fun i hi =>
        hsub i (List.mem_cons_of_mem _ hi)
      simp only [List.length_cons] at hm
      by_cases hvis : iid ∈ visited
      · rw [searchLoop_cons_visited p v fuel iid rest visited pushed
          processed s hvis]
        exact ih rest visited pushed processed s hrest (by omega)
      · have hiU : iid ∈ prevFlatten p := hsub iid (List.mem_cons_self _ _)
        have hlt := unvisitedCount_cons_lt p iid visited hiU hvis
        have hCC : unvisitedCount p (iid :: visited) * (1 + totalPrev p) +
            (1 + totalPrev p) ≤
            unvisitedCount p visited * (1 + totalPrev p) := by
          have h1 : unvisitedCount p (iid :: visited) + 1 ≤
              unvisitedCount p visited := hlt
          calc unvisitedCount p (iid :: visited) * (1 + totalPrev p) +
                (1 + totalPrev p)
              = (unvisitedCount p (iid :: visited) + 1) * (1 + totalPrev p) := by
                ring
            _ ≤ unvisitedCount p visited * (1 + totalPrev p) :=
                Nat.mul_le_mul_right _ h1
        set T := totalPrev p with hT
        set K := unvisitedCount p visited * (1 + T) with hK
        set K' := unvisitedCount p (iid :: visited) * (1 + T) with hK2
        cases hget : p.getInstr iid with
        | none =>
          rw [searchLoop_cons_none p v fuel iid rest visited pushed
            processed s hvis hget]
          exact ih rest (iid :: visited) pushed (iid :: processed) s hrest
            (by omega)
        | some instr =>
          have hinsmem : instr ∈ p.instructions := getInstr_mem p iid instr hget
          have hplen : instr.prev.length ≤ T := prev_length_le_totalPrev p instr hinsmem
          rw [searchLoop_cons_unvisited p v fuel iid rest visited pushed
            processed s instr hvis hget]
          by_cases hmod : (step_state instr.data v s).2 = true
          · rw [if_pos hmod]
            exact ih rest (iid :: visited) pushed (iid :: processed)
              (step_state instr.data v s).1 hrest (by omega)
          · rw [if_neg hmod]
            apply ih
            · intro i hi
              rcases List.mem_append.mp hi with h1 | h2
              · exact mem_prevFlatten p instr hinsmem i (List.mem_reverse.mp h1)
              · exact hrest i h2
            · simp only [List.length_append, List.length_reverse]
              omega

/-- The `processed` log stays duplicate-free: an instruction is examined at
most once (its id enters `visited` when examined, and visited ids are
skipped). -/
lemma searchLoop_processed_nodup (p : MFProcedure) (v : VarId) :
    ∀ (fuel : Nat) (stack visited pushed processed : List InstrId)
      (s : InitState),
      processed.Nodup → (∀ i ∈ processed, i ∈ visited) →
      ((searchLoop p v fuel
          ⟨stack, visited, s, pushed, processed⟩).1.processed.Nodup ∧
       ∀ i ∈ (searchLoop p v fuel
          ⟨stack, visited, s, pushed, processed⟩).1.processed,
         i ∈ (searchLoop p v fuel
          ⟨stack, visited, s, pushed, processed⟩).1.visited) := by
  intro fuel
  induction fuel with
  | zero =>
    intro stack visited pushed processed s h1 h2
    cases stack with
    | nil => rw [searchLoop_nil]; exact ⟨h1, h2⟩
    | cons iid rest => rw [searchLoop_zero_cons]; exact ⟨h1, h2⟩
  | succ fuel ih =>
    intro stack visited pushed processed s h1 h2
    cases stack with
    | nil => rw [searchLoop_nil]; exact ⟨h1, h2⟩
    | cons iid rest =>
      by_cases hvis : iid ∈ visited
      · rw [searchLoop_cons_visited p v fuel iid rest visited pushed
          processed s hvis]
        exact ih rest visited pushed processed s h1 h2
      · have hnproc : iid ∉ processed := fun hc => hvis (h2 iid hc)
        have h1' : (iid :: processed).Nodup := List.nodup_cons.mpr ⟨hnproc, h1⟩
        have h2' : ∀ i ∈ iid :: processed, i ∈ iid :: visited := by
          intro i hi
          rcases List.mem_cons.mp hi with rfl | hip
          · exact List.mem_cons_self _ _
          · exact List.mem_cons_of_mem _ (h2 i hip)
        cases hget : p.getInstr iid with
        | none =>
          rw [searchLoop_cons_none p v fuel iid rest visited pushed
            processed s hvis hget]
          exact ih rest (iid :: visited) pushed (iid :: processed) s h1' h2'
        | some instr =>
          rw [searchLoop_cons_unvisited p v fuel iid rest visited pushed
            processed s instr hvis hget]
          by_cases hmod : (step_state instr.data v s).2 = true
          · rw [if_pos hmod]
            exact ih rest (iid :: visited) pushed (iid :: processed) _ h1' h2'
          · rw [if_neg hmod]
            exact ih _ (iid :: visited) _ (iid :: processed) _ h1' h2'

/-- Counterexample to C6 as stated: in the double-edge procedure the
backward search from the dummy instruction pushes the branch instruction
(id 0) onto the worklist twice — an instruction is *not* enqueued at most
once — even though the run completes. -/
theorem claim_C6_counterexample :
    ((exProcDoubleEdge.findInitSearch 1 0).1.pushed).count 0 = 2 ∧
    (exProcDoubleEdge.findInitSearch 1 0).2 = true := by
  decide

/-- **C6 (amended).** For every procedure and every query the backward
search terminates (the worklist is drained within the computed fuel bound,
also on cyclic graphs), and every instruction is *examined* at most once —
the visited set makes re-popped instructions be skipped; an instruction
may however be enqueued more than once. -/
theorem claim_C6_amended_search_terminates (p : MFProcedure) (tid : InstrId)
    (v : VarId) :
    (p.findInitSearch tid v).2 = true ∧
    (p.findInitSearch tid v).1.processed.Nodup := by
  cases hget : p.getInstr tid with
  | none =>
    simp only [MFProcedure.findInitSearch, hget]
    exact ⟨trivial, List.nodup_nil⟩
  | some target =>
    simp only [MFProcedure.findInitSearch, hget]
    have htmem : target ∈ p.instructions := getInstr_mem p tid target hget
    have hsub : ∀ i ∈ target.prev.reverse, i ∈ prevFlatten p := fun i hi =>
      mem_prevFlatten p target htmem i (List.mem_reverse.mp hi)
    have hμ : (target.prev.reverse).length +
        unvisitedCount p [] * (1 + totalPrev p) ≤ searchFuel p := by
      rw [List.length_reverse, MFProcedure.searchFuel]
      exact Nat.add_le_add (prev_length_le_totalPrev p target htmem)
        (Nat.mul_le_mul_right _ (unvisitedCount_le p []))
    refine ⟨searchLoop_completes p v (searchFuel p) target.prev.reverse []
      target.prev [] _ hsub hμ, ?_⟩
    exact (searchLoop_processed_nodup p v (searchFuel p) target.prev.reverse
      [] target.prev [] _ List.nodup_nil (fun i hi => absurd hi
        (List.not_mem_nil i))).1

/-! ## C8/C10: the edge-mutation operations and the two connectivity
invariants -/

/-- Modelled from the spec: the BLI vector helper
`remove_first_occurrence_and_reorder` (declared in BLI_vector.hh, outside
this repository's sources) removes the first occurrence of the element,
filling the hole with the vector's last element. The spec's contract for
the mutation operations is "remove this instruction once from the target's
`prev`/`users` multiset"; the hole-filling changes only the order, never
the multiset, and only multiplicities are observable below, so removal of
the first occurrence is the model. -/
def remove_first_occurrence_and_reorder (l : List Nat) (a : Nat) : List Nat :=
  l.erase a

/-- Replace the element at an index (out-of-range: unchanged). -/
def listModify {α : Type} : List α → Nat → (α → α) → List α
  | [], _, _ => []
  | x :: xs, 0, f => f x :: xs
  | x :: xs, n + 1, f => x :: listModify xs n f

lemma length_listModify {α : Type} (l : List α) (n : Nat) (f : α → α) :
    (listModify l n f).length = l.length := by
  induction l generalizing n with
  | nil => rfl
  | cons x xs ih =>
    cases n with
    | zero => rfl
    | succ m => simp [listModify, ih]

lemma getD_listModify_eq {α : Type} (l : List α) (n : Nat) (f : α → α)
    (d : α) (h : n < l.length) :
    (listModify l n f).getD n d = f (l.getD n d) := by
  induction l generalizing n with
  | nil => cases h
  | cons x xs ih =>
    cases n with
    | zero => rfl
    | succ m => exact ih m (Nat.lt_of_succ_lt_succ h)

lemma getD_listModify_ne {α : Type} (l : List α) (n m : Nat) (f : α → α)
    (d : α) (h : m ≠ n) :
    (listModify l n f).getD m d = l.getD m d := by
  induction l generalizing n m with
  | nil => rfl
  | cons x xs ih =>
    cases n with
    | zero =>
      cases m with
      | zero => exact absurd rfl h
      | succ m' => rfl
    | succ n' =>
      cases m with
      | zero => rfl
      | succ m' => exact ih n' m' fun hc => h (by rw [hc])

lemma listModify_of_ge {α : Type} (l : List α) (n : Nat) (f : α → α)
    (h : l.length ≤ n) : listModify l n f = l := by
  induction l generalizing n with
  | nil => rfl
  | cons x xs ih =>
    cases n with
    | zero => cases h
    | succ m =>
      simp only [listModify]
      rw [ih m (Nat.le_of_succ_le_succ h)]

namespace MFProcedure

/-- Apply a function to the instruction at an id. -/
def updateInstr (p : MFProcedure) (i : InstrId)
    (f : MFInstruction → MFInstruction) : MFProcedure :=
  { p with instructions := listModify p.instructions i f }

/-- Apply a function to the variable at an id. -/
def updateVar (p : MFProcedure) (v : VarId)
    (f : MFVariable → MFVariable) : MFProcedure :=
  { p with variables_ := listModify p.variables_ v f }

/-- `target->prev_.remove_first_occurrence_and_reorder(who)`. -/
def removeFromPrev (p : MFProcedure) (target who : InstrId) : MFProcedure :=
  p.updateInstr target fun ins =>
    { ins with prev := remove_first_occurrence_and_reorder ins.prev who }

/-- `target->prev_.append(who)`. -/
def appendToPrev (p : MFProcedure) (target who : InstrId) : MFProcedure :=
  p.updateInstr target fun ins => { ins with prev := ins.prev ++ [who] }

/-- `variable->users_.remove_first_occurrence_and_reorder(who)`. -/
def removeFromUsers (p : MFProcedure) (target : VarId) (who : InstrId) :
    MFProcedure :=
  p.updateVar target fun mv =>
    { mv with users := remove_first_occurrence_and_reorder mv.users who }

/-- `variable->users_.append(who)`. -/
def appendToUsers (p : MFProcedure) (target : VarId) (who : InstrId) :
    MFProcedure :=
  p.updateVar target fun mv => { mv with users := mv.users ++ [who] }

/-- The detach half of a successor-edge mutation: remove `who` once from
the old target's `prev` when the old target is non-null. -/
def detachPrev (p : MFProcedure) (who : InstrId) :
    Option InstrId → MFProcedure
  | some t => p.removeFromPrev t who
  | none => p

/-- The attach half: append `who` to the new target's `prev` when
non-null. -/
def attachPrev (p : MFProcedure) (who : InstrId) :
    Option InstrId → MFProcedure
  | some t => p.appendToPrev t who
  | none => p

/-- The common detach/attach pattern of the `set_*` operations on successor
edges: remove `who` once from the old target's `prev` (when non-null),
then append it to the new target's `prev` (when non-null). -/
def relink_prev (p : MFProcedure) (who : InstrId)
    (oldTarget newTarget : Option InstrId) : MFProcedure :=
  attachPrev (detachPrev p who oldTarget) who newTarget

/-- The detach half on variable references (`users_`). -/
def detachUsers (p : MFProcedure) (who : InstrId) :
    Option VarId → MFProcedure
  | some t => p.removeFromUsers t who
  | none => p

/-- The attach half on variable references. -/
def attachUsers (p : MFProcedure) (who : InstrId) :
    Option VarId → MFProcedure
  | some t => p.appendToUsers t who
  | none => p

/-- The common detach/attach pattern on variable references (`users_`). -/
def relink_users (p : MFProcedure) (who : InstrId)
    (oldVar newVar : Option VarId) : MFProcedure :=
  attachUsers (detachUsers p who oldVar) who newVar

/-- Overwrite the payload of the instruction at an id (keeps `prev`). -/
def setData (p : MFProcedure) (i : InstrId) (d : InstrData) : MFProcedure :=
  p.updateInstr i fun ins => { ins with data := d }

end MFProcedure

namespace MFCallInstruction

/-- `MFCallInstruction::set_next`. -/
def set_next (p : MFProcedure) (self : InstrId)
    (instruction : Option InstrId) : MFProcedure :=
  match p.getInstr self with
  | some ⟨.call fn params next, _⟩ =>
      (p.relink_prev self next instruction).setData self
        (.call fn params instruction)
  | _ => p

/-- `MFCallInstruction::set_param_variable`. -/
def set_param_variable (p : MFProcedure) (self : InstrId) (param_index : Nat)
    (variable_ : Option VarId) : MFProcedure :=
  match p.getInstr self with
  | some ⟨.call fn params next, _⟩ =>
      (p.relink_users self (params.getD param_index none) variable_).setData
        self (.call fn (params.set param_index variable_) next)
  | _ => p

/-- `MFCallInstruction::set_params` (the source asserts the list has the
call's parameter count and then sets every slot in order). -/
def set_params (p : MFProcedure) (self : InstrId)
    (vars : List (Option VarId)) : MFProcedure :=
  (List.range vars.length).foldl
    (fun acc i => set_param_variable acc self i (vars.getD i none)) p

end MFCallInstruction

namespace MFBranchInstruction

/-- `MFBranchInstruction::set_condition`. -/
def set_condition (p : MFProcedure) (self : InstrId)
    (variable_ : Option VarId) : MFProcedure :=
  match p.getInstr self with
  | some ⟨.branch c t f, _⟩ =>
      (p.relink_users self c variable_).setData self (.branch variable_ t f)
  | _ => p

/-- `MFBranchInstruction::set_branch_true`. -/
def set_branch_true (p : MFProcedure) (self : InstrId)
    (instruction : Option InstrId) : MFProcedure :=
  match p.getInstr self with
  | some ⟨.branch c t f, _⟩ =>
      (p.relink_prev self t instruction).setData self
        (.branch c instruction f)
  | _ => p

/-- `MFBranchInstruction::set_branch_false`. -/
def set_branch_false (p : MFProcedure) (self : InstrId)
    (instruction : Option InstrId) : MFProcedure :=
  match p.getInstr self with
  | some ⟨.branch c t f, _⟩ =>
      (p.relink_prev self f instruction).setData self
        (.branch c t instruction)
  | _ => p

end MFBranchInstruction

namespace MFDestructInstruction

/-- `MFDestructInstruction::set_variable`. -/
def set_variable (p : MFProcedure) (self : InstrId)
    (variable_ : Option VarId) : MFProcedure :=
  match p.getInstr self with
  | some ⟨.destruct v next, _⟩ =>
      (p.relink_users self v variable_).setData self
        (.destruct variable_ next)
  | _ => p

/-- `MFDestructInstruction::set_next`. -/
def set_next (p : MFProcedure) (self : InstrId)
    (instruction : Option InstrId) : MFProcedure :=
  match p.getInstr self with
  | some ⟨.destruct v next, _⟩ =>
      (p.relink_prev self next instruction).setData self
        (.destruct v instruction)
  | _ => p

end MFDestructInstruction

namespace MFDummyInstruction

/-- `MFDummyInstruction::set_next`. -/
def set_next (p : MFProcedure) (self : InstrId)
    (instruction : Option InstrId) : MFProcedure :=
  match p.getInstr self with
  | some ⟨.dummy next, _⟩ =>
      (p.relink_prev self next instruction).setData self (.dummy instruction)
  | _ => p

end MFDummyInstruction

/-- The successor slots of an instruction payload, in source order: `next`
for call/destruct/dummy, `branch_true` then `branch_false` for a branch,
none for a return. -/
def succSlots : InstrData → List (Option InstrId)
  | .call _ _ n => [n]
  | .branch _ t f => [t, f]
  | .destruct _ n => [n]
  | .dummy n => [n]
  | .ret => []

/-- The variable-reference slots of an instruction payload: the call
parameter vector, the branch condition, the destruct target. -/
def varSlots : InstrData → List (Option VarId)
  | .call _ ps _ => ps
  | .branch c _ _ => [c]
  | .destruct v _ => [v]
  | .dummy _ => []
  | .ret => []

/-- Bidirectional edge consistency: for every pair of instructions (I, J)
the multiplicity of J among I's successor slots equals the multiplicity of
I in J's `prev` list. -/
def EdgeConsistent (p : MFProcedure) : Prop :=
  ∀ i, i < p.instructions.length → ∀ j, j < p.instructions.length →
    (succSlots (p.instrAt i).data).count (some j) = ((p.instrAt j).prev).count i

/-- Variable-user consistency: for every instruction I and variable V the
number of slots in I referencing V equals the multiplicity of I in V's
`users` multiset. -/
def UserConsistent (p : MFProcedure) : Prop :=
  ∀ i, i < p.instructions.length → ∀ v, v < p.variables_.length →
    (varSlots (p.instrAt i).data).count (some v) = ((p.varAt v).users).count i

/-! ### Count bookkeeping for the mutation operations -/

section CountLemmas

variable {α : Type} [BEq α] [LawfulBEq α] [DecidableEq α]

/-- Erasing decrements the count of the erased element (truncated). -/
lemma count_erase_sub (l : List α) (a x : α) :
    (l.erase a).count x = l.count x - if x = a then 1 else 0 := by
  rw [List.count_erase]
  by_cases h : x = a
  · subst h; simp
  · rw [if_neg h, if_neg fun hc => h (beq_iff_eq.mp hc).symm]

/-- Appending one element increments its count. -/
lemma count_append_one (l : List α) (a x : α) :
    (l ++ [a]).count x = l.count x + if x = a then 1 else 0 := by
  rw [List.count_append, List.count_cons, List.count_nil]
  by_cases h : x = a
  · rw [if_pos h, if_pos (beq_iff_eq.mpr h.symm)]
  · rw [if_neg h, if_neg fun hc => h (beq_iff_eq.mp hc).symm]

/-- Orientation: the `==` of kernel count lemmas versus propositional
equality. -/
lemma ite_beq_comm (a b : α) (n : Nat) :
    (if (b == a) = true then n else 0) = if a = b then n else 0 := by
  by_cases h : a = b
  · rw [if_pos h, if_pos (beq_iff_eq.mpr h.symm)]
  · rw [if_neg h, if_neg fun hc => h (beq_iff_eq.mp hc).symm]

/-- Counting through `List.set`, in additive (subtraction-free) form. -/
lemma count_set_add (l : List α) (k : Nat) (hk : k < l.length) (b x d : α) :
    (l.set k b).count x + (if x = l.getD k d then 1 else 0) =
      l.count x + (if x = b then 1 else 0) := by
  have hset : l.set k b = l.take k ++ b :: l.drop (k + 1) := by
    rw [List.set_eq_take_append_cons_drop, if_pos hk]
  have hgetD : l.getD k d = l[k] := by
    rw [List.getD_eq_getElem?_getD, List.getElem?_eq_getElem hk]
    rfl
  have hl : l = l.take k ++ l[k] :: l.drop (k + 1) := by
    conv_lhs => rw [← List.take_append_drop k l]
    rw [← List.getElem_cons_drop l k hk]
  rw [hset, hgetD]
  conv_rhs => rw [hl]
  rw [List.count_append, List.count_append, List.count_cons, List.count_cons,
    ite_beq_comm, ite_beq_comm]
  omega

/-- A member has positive count. -/
lemma one_le_count_of_mem (l : List α) (a : α) (h : a ∈ l) :
    1 ≤ l.count a := List.count_pos_iff.mpr h

end CountLemmas

namespace MFProcedure

/-- `instrAt` through `updateInstr`. -/
lemma instrAt_updateInstr (p : MFProcedure) (i : InstrId)
    (f : MFInstruction → MFInstruction) (x : InstrId) :
    (p.updateInstr i f).instrAt x =
      if x = i ∧ i < p.instructions.length then f (p.instrAt x)
      else p.instrAt x := by
  rw [MFProcedure.updateInstr, MFProcedure.instrAt, MFProcedure.instrAt]
  by_cases hi : i < p.instructions.length
  · by_cases hx : x = i
    · subst hx
      rw [if_pos ⟨rfl, hi⟩]
      exact getD_listModify_eq _ _ _ _ hi
    · rw [if_neg fun hc => hx hc.1]
      exact getD_listModify_ne _ _ _ _ _ hx
  · rw [if_neg fun hc => hi hc.2, listModify_of_ge _ _ _ (Nat.le_of_not_lt hi)]

/-- `varAt` through `updateVar`. -/
lemma varAt_updateVar (p : MFProcedure) (v : VarId)
    (f : MFVariable → MFVariable) (x : VarId) :
    (p.updateVar v f).varAt x =
      if x = v ∧ v < p.variables_.length then f (p.varAt x)
      else p.varAt x := by
  rw [MFProcedure.updateVar, MFProcedure.varAt, MFProcedure.varAt]
  by_cases hv : v < p.variables_.length
  · by_cases hx : x = v
    · subst hx
      rw [if_pos ⟨rfl, hv⟩]
      exact getD_listModify_eq _ _ _ _ hv
    · rw [if_neg fun hc => hx hc.1]
      exact getD_listModify_ne _ _ _ _ _ hx
  · rw [if_neg fun hc => hv hc.2, listModify_of_ge _ _ _ (Nat.le_of_not_lt hv)]

/-- Out-of-range ids read as the default instruction. -/
lemma instrAt_of_ge (p : MFProcedure) (x : InstrId)
    (h : p.instructions.length ≤ x) : p.instrAt x = ⟨.ret, []⟩ :=
  List.getD_eq_default _ _ h

lemma length_updateInstr (p : MFProcedure) (i : InstrId)
    (f : MFInstruction → MFInstruction) :
    (p.updateInstr i f).instructions.length = p.instructions.length :=
  length_listModify _ _ _

lemma variables_updateInstr (p : MFProcedure) (i : InstrId)
    (f : MFInstruction → MFInstruction) :
    (p.updateInstr i f).variables_ = p.variables_ := rfl

lemma instructions_updateVar (p : MFProcedure) (v : VarId)
    (f : MFVariable → MFVariable) :
    (p.updateVar v f).instructions = p.instructions := rfl

lemma length_removeFromPrev (p : MFProcedure) (t who : InstrId) :
    (p.removeFromPrev t who).instructions.length = p.instructions.length :=
  length_listModify _ _ _

lemma length_appendToPrev (p : MFProcedure) (t who : InstrId) :
    (p.appendToPrev t who).instructions.length = p.instructions.length :=
  length_listModify _ _ _

/-- `prev` counts through `removeFromPrev`. -/
lemma count_prev_removeFromPrev (p : MFProcedure) (t who j x : InstrId) :
    ((p.removeFromPrev t who).instrAt j).prev.count x =
      ((p.instrAt j).prev).count x -
        (if x = who ∧ (some t : Option InstrId) = some j ∧
            j < p.instructions.length then 1 else 0) := by
  rw [MFProcedure.removeFromPrev, instrAt_updateInstr]
  by_cases hc : j = t ∧ t < p.instructions.length
  · rw [if_pos hc]
    obtain ⟨rfl, ht⟩ := hc
    show ((p.instrAt j).prev.erase who).count x = _
    rw [count_erase_sub]
    by_cases hx : x = who
    · rw [if_pos hx, if_pos ⟨hx, rfl, ht⟩]
    · rw [if_neg hx, if_neg fun hcc => hx hcc.1]
  · rw [if_neg hc, if_neg fun hcc => hc
      ⟨(Option.some.inj hcc.2.1).symm,
       by rw [Option.some.inj hcc.2.1]; exact hcc.2.2⟩]
    exact (Nat.sub_zero _).symm

/-- `prev` counts through `appendToPrev`. -/
lemma count_prev_appendToPrev (p : MFProcedure) (t who j x : InstrId) :
    ((p.appendToPrev t who).instrAt j).prev.count x =
      ((p.instrAt j).prev).count x +
        (if x = who ∧ (some t : Option InstrId) = some j ∧
            j < p.instructions.length then 1 else 0) := by
  rw [MFProcedure.appendToPrev, instrAt_updateInstr]
  by_cases hc : j = t ∧ t < p.instructions.length
  · rw [if_pos hc]
    obtain ⟨rfl, ht⟩ := hc
    show ((p.instrAt j).prev ++ [who]).count x = _
    rw [count_append_one]
    by_cases hx : x = who
    · rw [if_pos hx, if_pos ⟨hx, rfl, ht⟩]
    · rw [if_neg hx, if_neg fun hcc => hx hcc.1]
  · rw [if_neg hc, if_neg fun hcc => hc
      ⟨(Option.some.inj hcc.2.1).symm,
       by rw [Option.some.inj hcc.2.1]; exact hcc.2.2⟩]
    exact (Nat.add_zero _).symm

/-- `prev` counts through the detach/attach pattern. -/
lemma count_prev_relink_prev (p : MFProcedure) (who : InstrId)
    (oldT newT : Option InstrId) (j x : InstrId) :
    ((p.relink_prev who oldT newT).instrAt j).prev.count x =
      ((p.instrAt j).prev).count x
        - (if x = who ∧ oldT = some j ∧ j < p.instructions.length then 1 else 0)
        + (if x = who ∧ newT = some j ∧ j < p.instructions.length then 1 else 0) := by
  have hnone : (if x = who ∧ (none : Option InstrId) = some j ∧
      j < p.instructions.length then 1 else 0) = 0 :=
    if_neg (by rintro ⟨-, h, -⟩; cases h)
  rw [MFProcedure.relink_prev]
  cases oldT with
  | none =>
    cases newT with
    | none =>
      show ((p.instrAt j).prev).count x = _
      rw [hnone, Nat.sub_zero, Nat.add_zero]
    | some t =>
      show ((p.appendToPrev t who).instrAt j).prev.count x = _
      rw [count_prev_appendToPrev, hnone, Nat.sub_zero]
  | some t =>
    cases newT with
    | none =>
      show ((p.removeFromPrev t who).instrAt j).prev.count x = _
      rw [count_prev_removeFromPrev, hnone, Nat.add_zero]
    | some t2 =>
      show (((p.removeFromPrev t who).appendToPrev t2 who).instrAt j).prev.count x = _
      rw [count_prev_appendToPrev, length_removeFromPrev,
        count_prev_removeFromPrev]

lemma varlength_removeFromUsers (p : MFProcedure) (t : VarId) (who : InstrId) :
    (p.removeFromUsers t who).variables_.length = p.variables_.length :=
  length_listModify _ _ _

lemma varlength_appendToUsers (p : MFProcedure) (t : VarId) (who : InstrId) :
    (p.appendToUsers t who).variables_.length = p.variables_.length :=
  length_listModify _ _ _

/-- `users` counts through `removeFromUsers`. -/
lemma count_users_removeFromUsers (p : MFProcedure) (t : VarId)
    (who : InstrId) (w : VarId) (x : InstrId) :
    ((p.removeFromUsers t who).varAt w).users.count x =
      ((p.varAt w).users).count x -
        (if x = who ∧ (some t : Option VarId) = some w ∧
            w < p.variables_.length then 1 else 0) := by
  rw [MFProcedure.removeFromUsers, varAt_updateVar]
  by_cases hc : w = t ∧ t < p.variables_.length
  · rw [if_pos hc]
    obtain ⟨rfl, ht⟩ := hc
    show ((p.varAt w).users.erase who).count x = _
    rw [count_erase_sub]
    by_cases hx : x = who
    · rw [if_pos hx, if_pos ⟨hx, rfl, ht⟩]
    · rw [if_neg hx, if_neg fun hcc => hx hcc.1]
  · rw [if_neg hc, if_neg fun hcc => hc
      ⟨(Option.some.inj hcc.2.1).symm,
       by rw [Option.some.inj hcc.2.1]; exact hcc.2.2⟩]
    exact (Nat.sub_zero _).symm

/-- `users` counts through `appendToUsers`. -/
lemma count_users_appendToUsers (p : MFProcedure) (t : VarId)
    (who : InstrId) (w : VarId) (x : InstrId) :
    ((p.appendToUsers t who).varAt w).users.count x =
      ((p.varAt w).users).count x +
        (if x = who ∧ (some t : Option VarId) = some w ∧
            w < p.variables_.length then 1 else 0) := by
  rw [MFProcedure.appendToUsers, varAt_updateVar]
  by_cases hc : w = t ∧ t < p.variables_.length
  · rw [if_pos hc]
    obtain ⟨rfl, ht⟩ := hc
    show ((p.varAt w).users ++ [who]).count x = _
    rw [count_append_one]
    by_cases hx : x = who
    · rw [if_pos hx, if_pos ⟨hx, rfl, ht⟩]
    · rw [if_neg hx, if_neg fun hcc => hx hcc.1]
  · rw [if_neg hc, if_neg fun hcc => hc
      ⟨(Option.some.inj hcc.2.1).symm,
       by rw [Option.some.inj hcc.2.1]; exact hcc.2.2⟩]
    exact (Nat.add_zero _).symm

/-- `users` counts through the detach/attach pattern. -/
lemma count_users_relink_users (p : MFProcedure) (who : InstrId)
    (oldV newV : Option VarId) (w : VarId) (x : InstrId) :
    ((p.relink_users who oldV newV).varAt w).users.count x =
      ((p.varAt w).users).count x
        - (if x = who ∧ oldV = some w ∧ w < p.variables_.length then 1 else 0)
        + (if x = who ∧ newV = some w ∧ w < p.variables_.length then 1 else 0) := by
  have hnone : (if x = who ∧ (none : Option VarId) = some w ∧
      w < p.variables_.length then 1 else 0) = 0 :=
    if_neg (by rintro ⟨-, h, -⟩; cases h)
  rw [MFProcedure.relink_users]
  cases oldV with
  | none =>
    cases newV with
    | none =>
      show ((p.varAt w).users).count x = _
      rw [hnone, Nat.sub_zero, Nat.add_zero]
    | some t =>
      show ((p.appendToUsers t who).varAt w).users.count x = _
      rw [count_users_appendToUsers, hnone, Nat.sub_zero]
  | some t =>
    cases newV with
    | none =>
      show ((p.removeFromUsers t who).varAt w).users.count x = _
      rw [count_users_removeFromUsers, hnone, Nat.add_zero]
    | some t2 =>
      show (((p.removeFromUsers t who).appendToUsers t2 who).varAt w).users.count x = _
      rw [count_users_appendToUsers, varlength_removeFromUsers,
        count_users_removeFromUsers]

/-! ### What each operation leaves untouched -/

lemma data_removeFromPrev (p : MFProcedure) (t who x : InstrId) :
    ((p.removeFromPrev t who).instrAt x).data = (p.instrAt x).data := by
  rw [MFProcedure.removeFromPrev, instrAt_updateInstr]
  by_cases hc : x = t ∧ t < p.instructions.length
  · rw [if_pos hc]
  · rw [if_neg hc]

lemma data_appendToPrev (p : MFProcedure) (t who x : InstrId) :
    ((p.appendToPrev t who).instrAt x).data = (p.instrAt x).data := by
  rw [MFProcedure.appendToPrev, instrAt_updateInstr]
  by_cases hc : x = t ∧ t < p.instructions.length
  · rw [if_pos hc]
  · rw [if_neg hc]

lemma data_relink_prev (p : MFProcedure) (who : InstrId)
    (oldT newT : Option InstrId) (x : InstrId) :
    ((p.relink_prev who oldT newT).instrAt x).data = (p.instrAt x).data := by
  rw [MFProcedure.relink_prev]
  cases oldT with
  | none =>
    cases newT with
    | none => rfl
    | some t => exact data_appendToPrev p t who x
  | some t =>
    cases newT with
    | none => exact data_removeFromPrev p t who x
    | some t2 =>
      show (((p.removeFromPrev t who).appendToPrev t2 who).instrAt x).data = _
      rw [data_appendToPrev, data_removeFromPrev]

lemma prev_setData (p : MFProcedure) (i : InstrId) (d : InstrData)
    (x : InstrId) :
    ((p.setData i d).instrAt x).prev = (p.instrAt x).prev := by
  rw [MFProcedure.setData, instrAt_updateInstr]
  by_cases hc : x = i ∧ i < p.instructions.length
  · rw [if_pos hc]
  · rw [if_neg hc]

lemma data_setData (p : MFProcedure) (i : InstrId) (d : InstrData)
    (x : InstrId) :
    ((p.setData i d).instrAt x).data =
      if x = i ∧ i < p.instructions.length then d
      else (p.instrAt x).data := by
  rw [MFProcedure.setData, instrAt_updateInstr]
  by_cases hc : x = i ∧ i < p.instructions.length
  · rw [if_pos hc, if_pos hc]
  · rw [if_neg hc, if_neg hc]

lemma length_setData (p : MFProcedure) (i : InstrId) (d : InstrData) :
    (p.setData i d).instructions.length = p.instructions.length :=
  length_listModify _ _ _

lemma length_relink_prev (p : MFProcedure) (who : InstrId)
    (oldT newT : Option InstrId) :
    (p.relink_prev who oldT newT).instructions.length =
      p.instructions.length := by
  rw [MFProcedure.relink_prev]
  cases oldT <;> cases newT <;>
    simp only [MFProcedure.attachPrev, MFProcedure.detachPrev,
      length_appendToPrev, length_removeFromPrev]

lemma varAt_relink_prev (p : MFProcedure) (who : InstrId)
    (oldT newT : Option InstrId) (v : VarId) :
    (p.relink_prev who oldT newT).varAt v = p.varAt v := by
  rw [MFProcedure.relink_prev]
  cases oldT <;> cases newT <;> rfl

lemma varAt_setData (p : MFProcedure) (i : InstrId) (d : InstrData)
    (v : VarId) : (p.setData i d).varAt v = p.varAt v := rfl

lemma varlength_relink_prev (p : MFProcedure) (who : InstrId)
    (oldT newT : Option InstrId) :
    (p.relink_prev who oldT newT).variables_.length = p.variables_.length := by
  rw [MFProcedure.relink_prev]
  cases oldT <;> cases newT <;> rfl

lemma varlength_setData (p : MFProcedure) (i : InstrId) (d : InstrData) :
    (p.setData i d).variables_.length = p.variables_.length := rfl

lemma instrAt_relink_users (p : MFProcedure) (who : InstrId)
    (oldV newV : Option VarId) (x : InstrId) :
    (p.relink_users who oldV newV).instrAt x = p.instrAt x := by
  rw [MFProcedure.relink_users]
  cases oldV <;> cases newV <;> rfl

lemma length_relink_users (p : MFProcedure) (who : InstrId)
    (oldV newV : Option VarId) :
    (p.relink_users who oldV newV).instructions.length =
      p.instructions.length := by
  rw [MFProcedure.relink_users]
  cases oldV <;> cases newV <;> rfl

lemma varlength_relink_users (p : MFProcedure) (who : InstrId)
    (oldV newV : Option VarId) :
    (p.relink_users who oldV newV).variables_.length =
      p.variables_.length := by
  rw [MFProcedure.relink_users]
  cases oldV <;> cases newV <;>
    simp only [MFProcedure.attachUsers, MFProcedure.detachUsers,
      varlength_appendToUsers, varlength_removeFromUsers]

/-- Master preservation lemma for successor-edge mutations: every `set_*`
on a successor edge replaces one successor slot `k` of the acting
instruction and relinks the `prev` lists of the old and new targets; this
keeps both invariants. -/
lemma preserve_relink_prev (p : MFProcedure) (self : InstrId)
    (hself : self < p.instructions.length)
    (d' : InstrData) (k : Nat) (newT : Option InstrId)
    (hk : k < (succSlots (p.instrAt self).data).length)
    (hslots : succSlots d' = (succSlots (p.instrAt self).data).set k newT)
    (hvar : varSlots d' = varSlots (p.instrAt self).data)
    (hE : EdgeConsistent p) (hU : UserConsistent p) :
    EdgeConsistent ((p.relink_prev self
        ((succSlots (p.instrAt self).data).getD k none) newT).setData self d') ∧
    UserConsistent ((p.relink_prev self
        ((succSlots (p.instrAt self).data).getD k none) newT).setData self d') := by
  set oldT := (succSlots (p.instrAt self).data).getD k none with holdT
  have hlen : ((p.relink_prev self oldT newT).setData self d').instructions.length
      = p.instructions.length := by
    rw [length_setData, length_relink_prev]
  have hvlen : ((p.relink_prev self oldT newT).setData self d').variables_.length
      = p.variables_.length := by
    rw [varlength_setData, varlength_relink_prev]
  constructor
  · intro i hi j hj
    rw [hlen] at hi hj
    have hdata : (((p.relink_prev self oldT newT).setData self d').instrAt i).data =
        if i = self then d' else (p.instrAt i).data := by
      rw [data_setData, data_relink_prev, length_relink_prev]
      by_cases hc : i = self
      · rw [if_pos ⟨hc, hself⟩, if_pos hc]
      · rw [if_neg fun hcc => hc hcc.1, if_neg hc]
    have hprev : ((((p.relink_prev self oldT newT).setData self d').instrAt j).prev).count i =
        ((p.instrAt j).prev).count i
          - (if i = self ∧ oldT = some j ∧ j < p.instructions.length then 1 else 0)
          + (if i = self ∧ newT = some j ∧ j < p.instructions.length then 1 else 0) := by
      rw [prev_setData, count_prev_relink_prev]
    rw [hdata, hprev]
    by_cases hc : i = self
    · subst hc
      rw [if_pos rfl, hslots]
      have hCE := hE i hself j hj
      have hset := count_set_add (succSlots (p.instrAt i).data) k hk newT
        (some j) none
      rw [← holdT] at hset
      by_cases ho : oldT = some j
      · have hpresent : 1 ≤ (succSlots (p.instrAt i).data).count (some j) := by
          apply one_le_count_of_mem
          have : (succSlots (p.instrAt i).data).getD k none ∈
              succSlots (p.instrAt i).data := by
            rw [List.getD_eq_getElem?_getD, List.getElem?_eq_getElem hk]
            exact List.getElem_mem hk
          rw [← holdT, ho] at this
          exact this
        rw [if_pos ⟨rfl, ho, hj⟩]
        rw [if_pos (show (some j : Option InstrId) = oldT from ho.symm)] at hset
        by_cases hn : newT = some j
        · rw [if_pos ⟨rfl, hn, hj⟩]
          rw [if_pos (show (some j : Option InstrId) = newT from hn.symm)] at hset
          omega
        · rw [if_neg fun hcc => hn hcc.2.1]
          rw [if_neg fun hcc => hn (hcc.symm : newT = some j)] at hset
          omega
      · rw [if_neg fun hcc => ho hcc.2.1]
        rw [if_neg fun hcc => ho (hcc.symm : oldT = some j)] at hset
        by_cases hn : newT = some j
        · rw [if_pos ⟨rfl, hn, hj⟩]
          rw [if_pos (show (some j : Option InstrId) = newT from hn.symm)] at hset
          omega
        · rw [if_neg fun hcc => hn hcc.2.1]
          rw [if_neg fun hcc => hn (hcc.symm : newT = some j)] at hset
          omega
    · rw [if_neg hc, if_neg fun hcc => hc hcc.1, if_neg fun hcc => hc hcc.1,
        Nat.sub_zero, Nat.add_zero]
      exact hE i hi j hj
  · intro i hi w hw
    rw [hlen] at hi
    rw [hvlen] at hw
    have hdata : (((p.relink_prev self oldT newT).setData self d').instrAt i).data =
        if i = self then d' else (p.instrAt i).data := by
      rw [data_setData, data_relink_prev, length_relink_prev]
      by_cases hc : i = self
      · rw [if_pos ⟨hc, hself⟩, if_pos hc]
      · rw [if_neg fun hcc => hc hcc.1, if_neg hc]
    have husers : ((p.relink_prev self oldT newT).setData self d').varAt w =
        p.varAt w := by
      rw [varAt_setData, varAt_relink_prev]
    rw [hdata, husers]
    by_cases hc : i = self
    · subst hc
      rw [if_pos rfl, hvar]
      exact hU i hself w hw
    · rw [if_neg hc]
      exact hU i hi w hw

/-- Master preservation lemma for variable-reference mutations: every
`set_*` on a variable slot replaces one variable slot `k` of the acting
instruction and relinks the `users` lists of the old and new variables;
this keeps both invariants. -/
lemma preserve_relink_users (p : MFProcedure) (self : InstrId)
    (hself : self < p.instructions.length)
    (d' : InstrData) (k : Nat) (newV : Option VarId)
    (hk : k < (varSlots (p.instrAt self).data).length)
    (hslots : varSlots d' = (varSlots (p.instrAt self).data).set k newV)
    (hsucc : succSlots d' = succSlots (p.instrAt self).data)
    (hE : EdgeConsistent p) (hU : UserConsistent p) :
    EdgeConsistent ((p.relink_users self
        ((varSlots (p.instrAt self).data).getD k none) newV).setData self d') ∧
    UserConsistent ((p.relink_users self
        ((varSlots (p.instrAt self).data).getD k none) newV).setData self d') := by
  set oldV := (varSlots (p.instrAt self).data).getD k none with holdV
  have hlen : ((p.relink_users self oldV newV).setData self d').instructions.length
      = p.instructions.length := by
    rw [length_setData, length_relink_users]
  have hvlen : ((p.relink_users self oldV newV).setData self d').variables_.length
      = p.variables_.length := by
    rw [varlength_setData, varlength_relink_users]
  have hdata : ∀ i, (((p.relink_users self oldV newV).setData self d').instrAt i).data =
      if i = self then d' else (p.instrAt i).data := by
    intro i
    rw [data_setData, length_relink_users]
    by_cases hc : i = self
    · rw [if_pos ⟨hc, hself⟩, if_pos hc]
    · rw [if_neg fun hcc => hc hcc.1, if_neg hc]
      rw [instrAt_relink_users]
  constructor
  · intro i hi j hj
    rw [hlen] at hi hj
    have hprev : (((p.relink_users self oldV newV).setData self d').instrAt j).prev =
        (p.instrAt j).prev := by
      rw [prev_setData, instrAt_relink_users]
    rw [hdata, hprev]
    by_cases hc : i = self
    · subst hc
      rw [if_pos rfl, hsucc]
      exact hE i hself j hj
    · rw [if_neg hc]
      exact hE i hi j hj
  · intro i hi w hw
    rw [hlen] at hi
    rw [hvlen] at hw
    have husers : (((p.relink_users self oldV newV).setData self d').varAt w).users.count i =
        ((p.varAt w).users).count i
          - (if i = self ∧ oldV = some w ∧ w < p.variables_.length then 1 else 0)
          + (if i = self ∧ newV = some w ∧ w < p.variables_.length then 1 else 0) := by
      rw [varAt_setData, count_users_relink_users]
    rw [hdata, husers]
    by_cases hc : i = self
    · subst hc
      rw [if_pos rfl, hslots]
      have hCU := hU i hself w hw
      have hset := count_set_add (varSlots (p.instrAt i).data) k hk newV
        (some w) none
      rw [← holdV] at hset
      by_cases ho : oldV = some w
      · have hpresent : 1 ≤ (varSlots (p.instrAt i).data).count (some w) := by
          apply one_le_count_of_mem
          have : (varSlots (p.instrAt i).data).getD k none ∈
              varSlots (p.instrAt i).data := by
            rw [List.getD_eq_getElem?_getD, List.getElem?_eq_getElem hk]
            exact List.getElem_mem hk
          rw [← holdV, ho] at this
          exact this
        rw [if_pos ⟨rfl, ho, hw⟩]
        rw [if_pos (show (some w : Option VarId) = oldV from ho.symm)] at hset
        by_cases hn : newV = some w
        · rw [if_pos ⟨rfl, hn, hw⟩]
          rw [if_pos (show (some w : Option VarId) = newV from hn.symm)] at hset
          omega
        · rw [if_neg fun hcc => hn hcc.2.1]
          rw [if_neg fun hcc => hn (hcc.symm : newV = some w)] at hset
          omega
      · rw [if_neg fun hcc => ho hcc.2.1]
        rw [if_neg fun hcc => ho (hcc.symm : oldV = some w)] at hset
        by_cases hn : newV = some w
        · rw [if_pos ⟨rfl, hn, hw⟩]
          rw [if_pos (show (some w : Option VarId) = newV from hn.symm)] at hset
          omega
        · rw [if_neg fun hcc => hn hcc.2.1]
          rw [if_neg fun hcc => hn (hcc.symm : newV = some w)] at hset
          omega
    · rw [if_neg hc, if_neg fun hcc => hc hcc.1, if_neg fun hcc => hc hcc.1,
        Nat.sub_zero, Nat.add_zero]
      exact hU i hi w hw

/-- A successful lookup gives the bound and the value of `instrAt`. -/
lemma getInstr_eq_some (p : MFProcedure) (i : InstrId) (ins : MFInstruction)
    (h : p.getInstr i = some ins) :
    i < p.instructions.length ∧ p.instrAt i = ins := by
  rw [MFProcedure.getInstr] at h
  obtain ⟨hi, rfl⟩ := List.getElem?_eq_some.mp h
  refine ⟨hi, ?_⟩
  rw [MFProcedure.instrAt, List.getD_eq_getElem?_getD,
    List.getElem?_eq_getElem hi]
  rfl

/-- `MFCallInstruction::set_next` preserves both invariants. -/
lemma set_next_call_preserves (p : MFProcedure) (self : InstrId)
    (t : Option InstrId) (hE : EdgeConsistent p) (hU : UserConsistent p) :
    EdgeConsistent (MFCallInstruction.set_next p self t) ∧
    UserConsistent (MFCallInstruction.set_next p self t) := by
  cases hget : p.getInstr self with
  | none =>
    simp only [MFCallInstruction.set_next, hget]
    exact ⟨hE, hU⟩
  | some ins =>
    obtain ⟨d, pr⟩ := ins
    match d with
    | .call fn params next =>
      simp only [MFCallInstruction.set_next, hget]
      obtain ⟨hself, hAt⟩ := getInstr_eq_some p self _ hget
      have hs : succSlots (p.instrAt self).data = [next] := by rw [hAt]; rfl
      have hmaster := preserve_relink_prev p self hself (.call fn params t) 0 t
        (by rw [hs]; exact Nat.zero_lt_one)
        (by rw [hs]; rfl)
        (by rw [hAt]; rfl)
        hE hU
      rw [hs] at hmaster
      exact hmaster
    | .branch c bt bf =>
      simp only [MFCallInstruction.set_next, hget]; exact ⟨hE, hU⟩
    | .destruct w nx =>
      simp only [MFCallInstruction.set_next, hget]; exact ⟨hE, hU⟩
    | .dummy nx =>
      simp only [MFCallInstruction.set_next, hget]; exact ⟨hE, hU⟩
    | .ret =>
      simp only [MFCallInstruction.set_next, hget]; exact ⟨hE, hU⟩

/-- `MFDestructInstruction::set_next` preserves both invariants. -/
lemma set_next_destruct_preserves (p : MFProcedure) (self : InstrId)
    (t : Option InstrId) (hE : EdgeConsistent p) (hU : UserConsistent p) :
    EdgeConsistent (MFDestructInstruction.set_next p self t) ∧
    UserConsistent (MFDestructInstruction.set_next p self t) := by
  cases hget : p.getInstr self with
  | none =>
    simp only [MFDestructInstruction.set_next, hget]
    exact ⟨hE, hU⟩
  | some ins =>
    obtain ⟨d, pr⟩ := ins
    match d with
    | .destruct w next =>
      simp only [MFDestructInstruction.set_next, hget]
      obtain ⟨hself, hAt⟩ := getInstr_eq_some p self _ hget
      have hs : succSlots (p.instrAt self).data = [next] := by rw [hAt]; rfl
      have hmaster := preserve_relink_prev p self hself (.destruct w t) 0 t
        (by rw [hs]; exact Nat.zero_lt_one)
        (by rw [hs]; rfl)
        (by rw [hAt]; rfl)
        hE hU
      rw [hs] at hmaster
      exact hmaster
    | .call fn params nx =>
      simp only [MFDestructInstruction.set_next, hget]; exact ⟨hE, hU⟩
    | .branch c bt bf =>
      simp only [MFDestructInstruction.set_next, hget]; exact ⟨hE, hU⟩
    | .dummy nx =>
      simp only [MFDestructInstruction.set_next, hget]; exact ⟨hE, hU⟩
    | .ret =>
      simp only [MFDestructInstruction.set_next, hget]; exact ⟨hE, hU⟩

/-- `MFDummyInstruction::set_next` preserves both invariants. -/
lemma set_next_dummy_preserves (p : MFProcedure) (self : InstrId)
    (t : Option InstrId) (hE : EdgeConsistent p) (hU : UserConsistent p) :
    EdgeConsistent (MFDummyInstruction.set_next p self t) ∧
    UserConsistent (MFDummyInstruction.set_next p self t) := by
  cases hget : p.getInstr self with
  | none =>
    simp only [MFDummyInstruction.set_next, hget]
    exact ⟨hE, hU⟩
  | some ins =>
    obtain ⟨d, pr⟩ := ins
    match d with
    | .dummy next =>
      simp only [MFDummyInstruction.set_next, hget]
      obtain ⟨hself, hAt⟩ := getInstr_eq_some p self _ hget
      have hs : succSlots (p.instrAt self).data = [next] := by rw [hAt]; rfl
      have hmaster := preserve_relink_prev p self hself (.dummy t) 0 t
        (by rw [hs]; exact Nat.zero_lt_one)
        (by rw [hs]; rfl)
        (by rw [hAt]; rfl)
        hE hU
      rw [hs] at hmaster
      exact hmaster
    | .call fn params nx =>
      simp only [MFDummyInstruction.set_next, hget]; exact ⟨hE, hU⟩
    | .branch c bt bf =>
      simp only [MFDummyInstruction.set_next, hget]; exact ⟨hE, hU⟩
    | .destruct w nx =>
      simp only [MFDummyInstruction.set_next, hget]; exact ⟨hE, hU⟩
    | .ret =>
      simp only [MFDummyInstruction.set_next, hget]; exact ⟨hE, hU⟩

/-- `MFBranchInstruction::set_branch_true` preserves both invariants. -/
lemma set_branch_true_preserves (p : MFProcedure) (self : InstrId)
    (t : Option InstrId) (hE : EdgeConsistent p) (hU : UserConsistent p) :
    EdgeConsistent (MFBranchInstruction.set_branch_true p self t) ∧
    UserConsistent (MFBranchInstruction.set_branch_true p self t) := by
  cases hget : p.getInstr self with
  | none =>
    simp only [MFBranchInstruction.set_branch_true, hget]
    exact ⟨hE, hU⟩
  | some ins =>
    obtain ⟨d, pr⟩ := ins
    match d with
    | .branch c bt bf =>
      simp only [MFBranchInstruction.set_branch_true, hget]
      obtain ⟨hself, hAt⟩ := getInstr_eq_some p self _ hget
      have hs : succSlots (p.instrAt self).data = [bt, bf] := by rw [hAt]; rfl
      have hmaster := preserve_relink_prev p self hself (.branch c t bf) 0 t
        (by rw [hs]; exact Nat.zero_lt_succ _)
        (by rw [hs]; rfl)
        (by rw [hAt]; rfl)
        hE hU
      rw [hs] at hmaster
      exact hmaster
    | .call fn params nx =>
      simp only [MFBranchInstruction.set_branch_true, hget]; exact ⟨hE, hU⟩
    | .destruct w nx =>
      simp only [MFBranchInstruction.set_branch_true, hget]; exact ⟨hE, hU⟩
    | .dummy nx =>
      simp only [MFBranchInstruction.set_branch_true, hget]; exact ⟨hE, hU⟩
    | .ret =>
      simp only [MFBranchInstruction.set_branch_true, hget]; exact ⟨hE, hU⟩

/-- `MFBranchInstruction::set_branch_false` preserves both invariants. -/
lemma set_branch_false_preserves (p : MFProcedure) (self : InstrId)
    (t : Option InstrId) (hE : EdgeConsistent p) (hU : UserConsistent p) :
    EdgeConsistent (MFBranchInstruction.set_branch_false p self t) ∧
    UserConsistent (MFBranchInstruction.set_branch_false p self t) := by
  cases hget : p.getInstr self with
  | none =>
    simp only [MFBranchInstruction.set_branch_false, hget]
    exact ⟨hE, hU⟩
  | some ins =>
    obtain ⟨d, pr⟩ := ins
    match d with
    | .branch c bt bf =>
      simp only [MFBranchInstruction.set_branch_false, hget]
      obtain ⟨hself, hAt⟩ := getInstr_eq_some p self _ hget
      have hs : succSlots (p.instrAt self).data = [bt, bf] := by rw [hAt]; rfl
      have hmaster := preserve_relink_prev p self hself (.branch c bt t) 1 t
        (by rw [hs]; simp)
        (by rw [hs]; rfl)
        (by rw [hAt]; rfl)
        hE hU
      rw [hs] at hmaster
      exact hmaster
    | .call fn params nx =>
      simp only [MFBranchInstruction.set_branch_false, hget]; exact ⟨hE, hU⟩
    | .destruct w nx =>
      simp only [MFBranchInstruction.set_branch_false, hget]; exact ⟨hE, hU⟩
    | .dummy nx =>
      simp only [MFBranchInstruction.set_branch_false, hget]; exact ⟨hE, hU⟩
    | .ret =>
      simp only [MFBranchInstruction.set_branch_false, hget]; exact ⟨hE, hU⟩

/-- `MFBranchInstruction::set_condition` preserves both invariants. -/
lemma set_condition_preserves (p : MFProcedure) (self : InstrId)
    (v : Option VarId) (hE : EdgeConsistent p) (hU : UserConsistent p) :
    EdgeConsistent (MFBranchInstruction.set_condition p self v) ∧
    UserConsistent (MFBranchInstruction.set_condition p self v) := by
  cases hget : p.getInstr self with
  | none =>
    simp only [MFBranchInstruction.set_condition, hget]
    exact ⟨hE, hU⟩
  | some ins =>
    obtain ⟨d, pr⟩ := ins
    match d with
    | .branch c bt bf =>
      simp only [MFBranchInstruction.set_condition, hget]
      obtain ⟨hself, hAt⟩ := getInstr_eq_some p self _ hget
      have hs : varSlots (p.instrAt self).data = [c] := by rw [hAt]; rfl
      have hmaster := preserve_relink_users p self hself (.branch v bt bf) 0 v
        (by rw [hs]; exact Nat.zero_lt_one)
        (by rw [hs]; rfl)
        (by rw [hAt]; rfl)
        hE hU
      rw [hs] at hmaster
      exact hmaster
    | .call fn params nx =>
      simp only [MFBranchInstruction.set_condition, hget]; exact ⟨hE, hU⟩
    | .destruct w nx =>
      simp only [MFBranchInstruction.set_condition, hget]; exact ⟨hE, hU⟩
    | .dummy nx =>
      simp only [MFBranchInstruction.set_condition, hget]; exact ⟨hE, hU⟩
    | .ret =>
      simp only [MFBranchInstruction.set_condition, hget]; exact ⟨hE, hU⟩

/-- `MFDestructInstruction::set_variable` preserves both invariants. -/
lemma set_variable_preserves (p : MFProcedure) (self : InstrId)
    (v : Option VarId) (hE : EdgeConsistent p) (hU : UserConsistent p) :
    EdgeConsistent (MFDestructInstruction.set_variable p self v) ∧
    UserConsistent (MFDestructInstruction.set_variable p self v) := by
  cases hget : p.getInstr self with
  | none =>
    simp only [MFDestructInstruction.set_variable, hget]
    exact ⟨hE, hU⟩
  | some ins =>
    obtain ⟨d, pr⟩ := ins
    match d with
    | .destruct w next =>
      simp only [MFDestructInstruction.set_variable, hget]
      obtain ⟨hself, hAt⟩ := getInstr_eq_some p self _ hget
      have hs : varSlots (p.instrAt self).data = [w] := by rw [hAt]; rfl
      have hmaster := preserve_relink_users p self hself (.destruct v next) 0 v
        (by rw [hs]; exact Nat.zero_lt_one)
        (by rw [hs]; rfl)
        (by rw [hAt]; rfl)
        hE hU
      rw [hs] at hmaster
      exact hmaster
    | .call fn params nx =>
      simp only [MFDestructInstruction.set_variable, hget]; exact ⟨hE, hU⟩
    | .branch c bt bf =>
      simp only [MFDestructInstruction.set_variable, hget]; exact ⟨hE, hU⟩
    | .dummy nx =>
      simp only [MFDestructInstruction.set_variable, hget]; exact ⟨hE, hU⟩
    | .ret =>
      simp only [MFDestructInstruction.set_variable, hget]; exact ⟨hE, hU⟩

/-- `MFCallInstruction::set_param_variable` preserves both invariants
(the slot index must be in range, as the source's indexing requires). -/
lemma set_param_variable_preserves (p : MFProcedure) (self : InstrId)
    (i : Nat) (v : Option VarId) (hE : EdgeConsistent p) (hU : UserConsistent p)
    (hi : ∀ fn ps nx pr, p.getInstr self = some ⟨.call fn ps nx, pr⟩ →
      i < ps.length) :
    EdgeConsistent (MFCallInstruction.set_param_variable p self i v) ∧
    UserConsistent (MFCallInstruction.set_param_variable p self i v) := by
  cases hget : p.getInstr self with
  | none =>
    simp only [MFCallInstruction.set_param_variable, hget]
    exact ⟨hE, hU⟩
  | some ins =>
    obtain ⟨d, pr⟩ := ins
    match d with
    | .call fn params next =>
      simp only [MFCallInstruction.set_param_variable, hget]
      obtain ⟨hself, hAt⟩ := getInstr_eq_some p self _ hget
      have hs : varSlots (p.instrAt self).data = params := by rw [hAt]; rfl
      have hmaster := preserve_relink_users p self hself
        (.call fn (params.set i v) next) i v
        (by rw [hs]; exact hi fn params next pr hget)
        (by rw [hs]; rfl)
        (by rw [hAt]; rfl)
        hE hU
      rw [hs] at hmaster
      exact hmaster
    | .branch c bt bf =>
      simp only [MFCallInstruction.set_param_variable, hget]; exact ⟨hE, hU⟩
    | .destruct w nx =>
      simp only [MFCallInstruction.set_param_variable, hget]; exact ⟨hE, hU⟩
    | .dummy nx =>
      simp only [MFCallInstruction.set_param_variable, hget]; exact ⟨hE, hU⟩
    | .ret =>
      simp only [MFCallInstruction.set_param_variable, hget]; exact ⟨hE, hU⟩

/-- In-range ids look up to `instrAt`. -/
lemma getInstr_eq_instrAt (p : MFProcedure) (i : InstrId)
    (h : i < p.instructions.length) :
    p.getInstr i = some (p.instrAt i) := by
  rw [MFProcedure.getInstr, MFProcedure.instrAt, List.getElem?_eq_getElem h,
    List.getD_eq_getElem?_getD, List.getElem?_eq_getElem h]
  rfl

/-- `set_param_variable` leaves the call in place with the slot replaced
and `prev` unchanged. -/
lemma getInstr_set_param_variable (p : MFProcedure) (self : InstrId)
    (i : Nat) (v : Option VarId) (fn : MultiFunction)
    (ps : List (Option VarId)) (nx : Option InstrId) (pr : List InstrId)
    (h : p.getInstr self = some ⟨.call fn ps nx, pr⟩) :
    (MFCallInstruction.set_param_variable p self i v).getInstr self =
      some ⟨.call fn (ps.set i v) nx, pr⟩ := by
  simp only [MFCallInstruction.set_param_variable, h]
  obtain ⟨hself, hAt⟩ := getInstr_eq_some p self _ h
  set q := (p.relink_users self (ps.getD i none) v).setData self
    (.call fn (ps.set i v) nx) with hq
  have hql : q.instructions.length = p.instructions.length := by
    rw [hq, length_setData, length_relink_users]
  have hdata : (q.instrAt self).data = .call fn (ps.set i v) nx := by
    rw [hq, data_setData]
    rw [if_pos ⟨rfl, by rw [length_relink_users]; exact hself⟩]
  have hprev : (q.instrAt self).prev = pr := by
    rw [hq, prev_setData, instrAt_relink_users, hAt]
  have hAtq : q.instrAt self = ⟨.call fn (ps.set i v) nx, pr⟩ := by
    calc q.instrAt self = ⟨(q.instrAt self).data, (q.instrAt self).prev⟩ := rfl
      _ = ⟨.call fn (ps.set i v) nx, pr⟩ := by rw [hdata, hprev]
  rw [getInstr_eq_instrAt q self (by rw [hql]; exact hself), hAtq]

/-- The slot-setting fold of `set_params` preserves both invariants. -/
lemma set_params_loop_preserves (self : InstrId)
    (vals : List (Option VarId)) :
    ∀ (idxs : List Nat) (p : MFProcedure) (fn : MultiFunction)
      (ps : List (Option VarId)) (nx : Option InstrId) (pr : List InstrId),
      p.getInstr self = some ⟨.call fn ps nx, pr⟩ →
      (∀ i ∈ idxs, i < ps.length) →
      EdgeConsistent p → UserConsistent p →
      EdgeConsistent (idxs.foldl (fun acc i =>
        MFCallInstruction.set_param_variable acc self i (vals.getD i none)) p) ∧
      UserConsistent (idxs.foldl (fun acc i =>
        MFCallInstruction.set_param_variable acc self i (vals.getD i none)) p) := by
  intro idxs
  induction idxs with
  | nil =>
    intro p fn ps nx pr hget hb hE hU
    exact ⟨hE, hU⟩
  | cons i rest ih =>
    intro p fn ps nx pr hget hb hE hU
    rw [List.foldl_cons]
    have hstep := set_param_variable_preserves p self i (vals.getD i none)
      hE hU (fun fn' ps' nx' pr' h' => by
        have heq := hget.symm.trans h'
        simp only [Option.some.injEq, MFInstruction.mk.injEq,
          InstrData.call.injEq] at heq
        rw [← heq.1.2.1]
        exact hb i (List.mem_cons_self _ _))
    have hshape := getInstr_set_param_variable p self i (vals.getD i none)
      fn ps nx pr hget
    exact ih _ fn (ps.set i (vals.getD i none)) nx pr hshape
      (fun i' hi' => by
        rw [List.length_set]
        exact hb i' (List.mem_cons_of_mem _ hi'))
      hstep.1 hstep.2

/-- `MFCallInstruction::set_params` preserves both invariants (the source
asserts that the list has the call's parameter count). -/
lemma set_params_preserves (p : MFProcedure) (self : InstrId)
    (vals : List (Option VarId)) (fn : MultiFunction)
    (ps : List (Option VarId)) (nx : Option InstrId) (pr : List InstrId)
    (hget : p.getInstr self = some ⟨.call fn ps nx, pr⟩)
    (hlen : vals.length = ps.length)
    (hE : EdgeConsistent p) (hU : UserConsistent p) :
    EdgeConsistent (MFCallInstruction.set_params p self vals) ∧
    UserConsistent (MFCallInstruction.set_params p self vals) := by
  rw [MFCallInstruction.set_params]
  exact set_params_loop_preserves self vals (List.range vals.length) p fn ps
    nx pr hget (fun i hi => by rw [← hlen]; exact List.mem_range.mp hi) hE hU

end MFProcedure

/-- **C8.** Every edge-mutation operation preserves the two connectivity
invariants: after `set_next` (on call, destruct and dummy),
`set_branch_true`, `set_branch_false`, `set_condition`, `set_variable`,
`set_param_variable` and `set_params`, the multiplicity of J among I's
successor slots equals the multiplicity of I in J's `prev` list for every
pair (I, J), and the number of slots in I referencing V equals the
multiplicity of I in V's `users` multiset for every (I, V). (The two
indexing operations take an in-range slot index, as the source's array
indexing and size assertion require.) -/
theorem claim_C8_mutations_preserve_consistency (p : MFProcedure)
    (hE : EdgeConsistent p) (hU : UserConsistent p) :
    (∀ self t, EdgeConsistent (MFCallInstruction.set_next p self t) ∧
      UserConsistent (MFCallInstruction.set_next p self t)) ∧
    (∀ self t, EdgeConsistent (MFDestructInstruction.set_next p self t) ∧
      UserConsistent (MFDestructInstruction.set_next p self t)) ∧
    (∀ self t, EdgeConsistent (MFDummyInstruction.set_next p self t) ∧
      UserConsistent (MFDummyInstruction.set_next p self t)) ∧
    (∀ self t, EdgeConsistent (MFBranchInstruction.set_branch_true p self t) ∧
      UserConsistent (MFBranchInstruction.set_branch_true p self t)) ∧
    (∀ self t, EdgeConsistent (MFBranchInstruction.set_branch_false p self t) ∧
      UserConsistent (MFBranchInstruction.set_branch_false p self t)) ∧
    (∀ self v, EdgeConsistent (MFBranchInstruction.set_condition p self v) ∧
      UserConsistent (MFBranchInstruction.set_condition p self v)) ∧
    (∀ self v, EdgeConsistent (MFDestructInstruction.set_variable p self v) ∧
      UserConsistent (MFDestructInstruction.set_variable p self v)) ∧
    (∀ self i v,
      (∀ fn ps nx pr, p.getInstr self = some ⟨.call fn ps nx, pr⟩ →
        i < ps.length) →
      EdgeConsistent (MFCallInstruction.set_param_variable p self i v) ∧
      UserConsistent (MFCallInstruction.set_param_variable p self i v)) ∧
    (∀ self vals fn ps nx pr,
      p.getInstr self = some ⟨.call fn ps nx, pr⟩ → vals.length = ps.length →
      EdgeConsistent (MFCallInstruction.set_params p self vals) ∧
      UserConsistent (MFCallInstruction.set_params p self vals)) :=
  ⟨fun self t => set_next_call_preserves p self t hE hU,
   fun self t => set_next_destruct_preserves p self t hE hU,
   fun self t => set_next_dummy_preserves p self t hE hU,
   fun self t => set_branch_true_preserves p self t hE hU,
   fun self t => set_branch_false_preserves p self t hE hU,
   fun self v => set_condition_preserves p self v hE hU,
   fun self v => set_variable_preserves p self v hE hU,
   fun self i v hi => set_param_variable_preserves p self i v hE hU hi,
   fun self vals fn ps nx pr hget hlen =>
     set_params_preserves p self vals fn ps nx pr hget hlen hE hU⟩

/-- The invariants are decidable, so concrete procedures can be checked by
evaluation. -/
instance (p : MFProcedure) : Decidable (EdgeConsistent p) :=
  inferInstanceAs (Decidable (∀ i, i < p.instructions.length →
    ∀ j, j < p.instructions.length →
    (succSlots (p.instrAt i).data).count (some j) = ((p.instrAt j).prev).count i))

/-- The user-consistency invariant is decidable as well. -/
instance (p : MFProcedure) : Decidable (UserConsistent p) :=
  inferInstanceAs (Decidable (∀ i, i < p.instructions.length →
    ∀ v, v < p.variables_.length →
    (varSlots (p.instrAt i).data).count (some v) = ((p.varAt v).users).count i))

/-- Witness for C8: rewiring the call of the valid example procedure to
point at the return keeps both invariants. -/
theorem claim_C8_mutations_preserve_consistency_witness :
    EdgeConsistent (MFCallInstruction.set_next exProc1 0 (some 2)) ∧
    UserConsistent (MFCallInstruction.set_next exProc1 0 (some 2)) :=
  (claim_C8_mutations_preserve_consistency exProc1 (by decide) (by decide)).1
    0 (some 2)

/-- **C10.** Re-setting a slot to the value it already holds is a no-op on
the connected multisets: `set_next(t)` when `next` is already `t` leaves
`t`'s `prev` list unchanged as a multiset, and `set_param_variable(i, v)`
when slot `i` already holds `v` (resp. `set_condition(v)` when the
condition already is `v`) leaves `v`'s `users` list unchanged as a
multiset — the detach removes one occurrence and the attach appends one. -/
theorem claim_C10_reset_is_multiset_noop (p : MFProcedure)
    (hE : EdgeConsistent p) (hU : UserConsistent p) :
    (∀ self t fn params pr, t < p.instructions.length →
      p.getInstr self = some ⟨.call fn params (some t), pr⟩ →
      ∀ x, (((MFCallInstruction.set_next p self (some t)).instrAt t).prev).count x =
        ((p.instrAt t).prev).count x) ∧
    (∀ self i w fn params nx pr, w < p.variables_.length →
      p.getInstr self = some ⟨.call fn params nx, pr⟩ →
      i < params.length → params.getD i none = some w →
      ∀ x, (((MFCallInstruction.set_param_variable p self i (some w)).varAt w).users).count x =
        ((p.varAt w).users).count x) ∧
    (∀ self w bt bf pr, w < p.variables_.length →
      p.getInstr self = some ⟨.branch (some w) bt bf, pr⟩ →
      ∀ x, (((MFBranchInstruction.set_condition p self (some w)).varAt w).users).count x =
        ((p.varAt w).users).count x) := by
  refine ⟨?_, ?_, ?_⟩
  · intro self t fn params pr ht hget x
    obtain ⟨hself, hAt⟩ := getInstr_eq_some p self _ hget
    simp only [MFCallInstruction.set_next, hget]
    rw [prev_setData, count_prev_relink_prev]
    have hcount : 1 ≤ ((p.instrAt t).prev).count self := by
      have hCE := hE self hself t ht
      rw [hAt] at hCE
      have : (succSlots (InstrData.call fn params (some t))).count
          (some t) = 1 := by
        show ([some t] : List (Option InstrId)).count (some t) = 1
        simp
      rw [this] at hCE
      omega
    by_cases hx : x = self
    · subst hx
      rw [if_pos ⟨rfl, rfl, ht⟩]
      omega
    · rw [if_neg fun hcc => hx hcc.1]
      omega
  · intro self i w fn params nx pr hw hget hi hslot x
    obtain ⟨hself, hAt⟩ := getInstr_eq_some p self _ hget
    simp only [MFCallInstruction.set_param_variable, hget, hslot]
    rw [varAt_setData, count_users_relink_users]
    have hcount : 1 ≤ ((p.varAt w).users).count self := by
      have hCU := hU self hself w hw
      rw [hAt] at hCU
      have hmem : (some w : Option VarId) ∈ params := by
        have : params.getD i none = params[i] := by
          rw [List.getD_eq_getElem?_getD, List.getElem?_eq_getElem hi]
          rfl
        rw [this] at hslot
        rw [← hslot]
        exact List.getElem_mem hi
      have h1 : 1 ≤ (varSlots (InstrData.call fn params nx)).count (some w) :=
        one_le_count_of_mem _ _ hmem
      have hCU2 : (varSlots (InstrData.call fn params nx)).count (some w) =
          ((p.varAt w).users).count self := hCU
      omega
    by_cases hx : x = self
    · subst hx
      rw [if_pos ⟨rfl, rfl, hw⟩]
      omega
    · rw [if_neg fun hcc => hx hcc.1]
      omega
  · intro self w bt bf pr hw hget x
    obtain ⟨hself, hAt⟩ := getInstr_eq_some p self _ hget
    simp only [MFBranchInstruction.set_condition, hget]
    rw [varAt_setData, count_users_relink_users]
    have hcount : 1 ≤ ((p.varAt w).users).count self := by
      have hCU := hU self hself w hw
      rw [hAt] at hCU
      have : (varSlots (InstrData.branch (some w) bt bf)).count (some w) = 1 := by
        show ([some w] : List (Option VarId)).count (some w) = 1
        simp
      rw [this] at hCU
      omega
    by_cases hx : x = self
    · subst hx
      rw [if_pos ⟨rfl, rfl, hw⟩]
      omega
    · rw [if_neg fun hcc => hx hcc.1]
      omega

/-- Witness for C10: re-setting the example call's `next` to the destruct
it already points at leaves the destruct's `prev` multiset unchanged. -/
theorem claim_C10_reset_is_multiset_noop_witness :
    (((MFCallInstruction.set_next exProc1 0 (some 1)).instrAt 1).prev).count 0 =
      ((exProc1.instrAt 1).prev).count 0 :=
  (claim_C10_reset_is_multiset_noop exProc1 (by decide) (by decide)).1
    0 1 exF [some 0, some 1] [] (by decide) (by decide) 0

end BlenderFn
